import Mathlib

/-!
Hele-Shaw elements: residual, Jacobian, mesh sensitivities and diagnostics

A shallow embedding of `src/hele_shaw_equations.cpp` (class `HeleShawEquations`).

Conventions of the embedding.

* `double` is modelled by `ℚ` (exact arithmetic); `pow(h, 3)` is `h ^ 3`.
* A `Vector<double>` that the code writes is a `Vec ι`, a total map from the index type `ι`
  to `ℚ`: `ι = Fin 2` for a vector whose size is the spatial dimension 2 (local coordinate
  `s`, `interpolated_x`, `interpolated_dpdx`), `ι = ℕ` for a vector of a size chosen by the
  caller (`velocity`, `gradient`), and `ι = ℤ` for `residuals`, which is indexed by the `int`
  local equation number.  `DenseMatrix<double>` and `RankThreeTensor<double>` are modelled
  alike.  Sizes of the caller's buffers are not modelled.
* A loop `for (unsigned j = 0; j < 2; j++)` is a left fold over `List.finRange 2`, a loop
  `for (unsigned l = 0; l < n; l++)` is a left fold over `List.range n`; `a[i] = v` is
  `a.set i v` and `a[i] += v` is `a.add i v`.
* Everything the class obtains from the finite-element library or from the class header
  (shape functions, geometric mapping, quadrature rule, equation numbering, wall data) is a
  field of the structure `HeleShawEquations`.
* A callback that fills outputs passed by reference is a function returning the outputs.
  `get_upper_wall_data` and `get_upper_wall_flux_data` also receive the values the outputs
  hold on entry (the source initialises them before each call); the exact solution passed to
  `compute_error` is a function of the position alone.
* Text written to `outfile` is not modelled.
-/

/-- A `Vector<double>` with indices in `ι`. -/
structure Vec (ι : Type) where
  /-- The entry `v[i]`. -/
  val : ι → ℚ

/-- The assignment `v[i] = x`. -/
def Vec.set {ι : Type} [DecidableEq ι] (v : Vec ι) (i : ι) (x : ℚ) : Vec ι :=
  ⟨Function.update v.val i x⟩

/-- The statement `v[i] += x`. -/
def Vec.add {ι : Type} [DecidableEq ι] (v : Vec ι) (i : ι) (x : ℚ) : Vec ι :=
  v.set i (v.val i + x)

/-- The vector `Vector<double>(n, 0.0)`. -/
def Vec.zero {ι : Type} : Vec ι := ⟨fun _ => 0⟩

/-- A `DenseMatrix<double>` addressed by local equation numbers. -/
structure DenseMatrix where
  /-- The entry `m(a, b)`. -/
  entry : ℤ → ℤ → ℚ

/-- The statement `m(a, b) += x`. -/
def DenseMatrix.add (m : DenseMatrix) (a b : ℤ) (x : ℚ) : DenseMatrix :=
  ⟨Function.update m.entry a (Function.update (m.entry a) b (m.entry a b + x))⟩

/-- A `RankThreeTensor<double>` with indices in `α`, `β`, `γ`. -/
structure RankThreeTensor (α β γ : Type) where
  /-- The entry `T(a, b, c)`. -/
  entry : α → β → γ → ℚ

/-- The assignment `T(a, b, c) = x`. -/
def RankThreeTensor.set {α β γ : Type} [DecidableEq α] [DecidableEq β] [DecidableEq γ]
    (T : RankThreeTensor α β γ) (a : α) (b : β) (c : γ) (x : ℚ) : RankThreeTensor α β γ :=
  ⟨Function.update T.entry a
    (Function.update (T.entry a) b (Function.update (T.entry a b) c x))⟩

/-- The statement `T(a, b, c) += x`. -/
def RankThreeTensor.add {α β γ : Type} [DecidableEq α] [DecidableEq β] [DecidableEq γ]
    (T : RankThreeTensor α β γ) (a : α) (b : β) (c : γ) (x : ℚ) : RankThreeTensor α β γ :=
  T.set a b c (T.entry a b c + x)

/-- Buffers filled by `dshape_and_dtest_eulerian_at_knot_hele_shaw(ipt, psi, dpsidx, test,
dtestdx)` together with the returned Jacobian determinant of the mapping. -/
structure ShapeTestData where
  /-- Shape functions `psi(l)`. -/
  psi : ℕ → ℚ
  /-- Eulerian derivatives `dpsidx(l, j)`. -/
  dpsidx : ℕ → Fin 2 → ℚ
  /-- Test functions `test(l)`. -/
  test : ℕ → ℚ
  /-- Eulerian derivatives `dtestdx(l, j)`. -/
  dtestdx : ℕ → Fin 2 → ℚ
  /-- Determinant of the Jacobian of the mapping (the return value). -/
  J : ℚ

/-- Buffers filled by the overload `dshape_and_dtest_eulerian_at_knot_hele_shaw(ipt, psi,
dpsidx, d_dpsidx_dX, test, dtestdx, d_dtestdx_dX, dJ_dX)` and its return value. -/
structure ShapeTestDataDX where
  /-- Shape functions `psi(l)`. -/
  psi : ℕ → ℚ
  /-- Eulerian derivatives `dpsidx(l, j)`. -/
  dpsidx : ℕ → Fin 2 → ℚ
  /-- Derivatives `d_dpsidx_dX(p, q, j, i)` of `dpsidx(j, i)` w.r.t. the coordinate `X_{pq}`. -/
  d_dpsidx_dX : Fin 2 → ℕ → ℕ → Fin 2 → ℚ
  /-- Test functions `test(l)`. -/
  test : ℕ → ℚ
  /-- Eulerian derivatives `dtestdx(l, j)`. -/
  dtestdx : ℕ → Fin 2 → ℚ
  /-- Derivatives `d_dtestdx_dX(p, q, j, i)` of `dtestdx(j, i)` w.r.t. `X_{pq}`. -/
  d_dtestdx_dX : Fin 2 → ℕ → ℕ → Fin 2 → ℚ
  /-- Derivatives `dJ_dX(p, q)` of the Jacobian determinant w.r.t. `X_{pq}`. -/
  dJ_dX : Fin 2 → ℕ → ℚ
  /-- Determinant of the Jacobian of the mapping (the return value). -/
  J : ℚ

/-- Buffers filled by `dshape_eulerian(s, psi, dpsidx)`. -/
structure ShapeData where
  /-- Shape functions `psi(l)`. -/
  psi : ℕ → ℚ
  /-- Eulerian derivatives `dpsidx(l, j)`. -/
  dpsidx : ℕ → Fin 2 → ℚ

/-- Values left in `h`, `dhdt`, `dhdx`, `d_dhdt_dx` by `get_upper_wall_flux_data`. -/
structure UpperWallFluxData where
  /-- Gap width. -/
  h : ℚ
  /-- Wall velocity. -/
  dhdt : ℚ
  /-- Spatial derivatives of the gap width. -/
  dhdx : Fin 2 → ℚ
  /-- Spatial derivatives of the wall velocity. -/
  d_dhdt_dx : Fin 2 → ℚ

/-- The object thrown by `throw OomphLibError(message, function, location)`. -/
structure OomphLibError where
  /-- The error message (first constructor argument). -/
  message : String
  /-- The name of the throwing function (second constructor argument). -/
  function_name : String
deriving DecidableEq

/-- State of a `HeleShawEquations` element as seen by the member functions of
`hele_shaw_equations.cpp`.  Each field is a member function of the class (or of its
finite-element base classes) that the source calls but does not define. -/
structure HeleShawEquations where
  /-- Number of nodes `nnode()`. -/
  nnode : ℕ
  /-- The value `nodal_value(l, p_index_hele_shaw())` of the pressure at node `l`. -/
  nodal_value : ℕ → ℚ
  /-- The value `raw_nodal_value(l, p_index_hele_shaw())`. -/
  raw_nodal_value : ℕ → ℚ
  /-- The coordinate `raw_nodal_position(l, j)`. -/
  raw_nodal_position : ℕ → Fin 2 → ℚ
  /-- The local equation number `nodal_local_eqn(l, p_index_hele_shaw())`; negative when the
  value is pinned. -/
  nodal_local_eqn : ℕ → ℤ
  /-- Number of integration points `integral_pt()->nweight()`. -/
  nweight : ℕ
  /-- Quadrature weight `integral_pt()->weight(ipt)`. -/
  weight : ℕ → ℚ
  /-- Quadrature knot `integral_pt()->knot(ipt, i)`. -/
  knot : ℕ → Fin 2 → ℚ
  /-- The member `dshape_and_dtest_eulerian_at_knot_hele_shaw(ipt, psi, dpsidx, test, dtestdx)`. -/
  dshape_and_dtest_eulerian_at_knot_hele_shaw : ℕ → ShapeTestData
  /-- The overload of `dshape_and_dtest_eulerian_at_knot_hele_shaw` with the derivatives
  w.r.t. the nodal coordinates. -/
  dshape_and_dtest_eulerian_at_knot_hele_shaw_dX : ℕ → ShapeTestDataDX
  /-- The member `dshape_eulerian(s, psi, dpsidx)`. -/
  dshape_eulerian : (Fin 2 → ℚ) → ShapeData
  /-- The member `get_upper_wall_data(ipt, x, h, dhdt)`: from the integration point, the
  position and the values held by `h` and `dhdt` on entry, the values they hold on return. -/
  get_upper_wall_data : ℕ → (Fin 2 → ℚ) → ℚ × ℚ → ℚ × ℚ
  /-- The member `get_upper_wall_flux_data(ipt, x, h, dhdt, dhdx, d_dhdt_dx)`: from the
  integration point, the position and the values held by the four outputs on entry, the
  values they hold on return. -/
  get_upper_wall_flux_data : ℕ → (Fin 2 → ℚ) → UpperWallFluxData → UpperWallFluxData
  /-- The member `J_eulerian(s)`. -/
  J_eulerian : (Fin 2 → ℚ) → ℚ
  /-- The member `interpolated_x(s, x)`: the position at local coordinate `s`. -/
  interpolated_x : (Fin 2 → ℚ) → Fin 2 → ℚ
  /-- The member `interpolated_p_hele_shaw(s)`. -/
  interpolated_p_hele_shaw : (Fin 2 → ℚ) → ℚ
  /-- The static matrix `GeneralisedElement::Dummy_matrix`. -/
  Dummy_matrix : DenseMatrix

namespace HeleShawEquations

/-- The loops of `get_pressure_gradient`: `gradient[j] = 0.0` for `j < 2`, then over the nodes
`l` and the directions `j`, `gradient[j] += nodal_value(l) * dpsidx(l, j)`. -/
def get_pressure_gradient (el : HeleShawEquations) (s : Fin 2 → ℚ) (gradient : Vec ℕ) :
    Vec ℕ :=
  let sh := el.dshape_eulerian s
  let gradient := (List.finRange 2).foldl (fun (g : Vec ℕ) j => g.set j.val 0) gradient
  (List.range el.nnode).foldl
    (fun g l => (List.finRange 2).foldl
      (fun (g : Vec ℕ) j => g.add j.val (el.nodal_value l * sh.dpsidx l j)) g)
    gradient

/-- The function `get_velocity(s, velocity)`: `velocity[j] = -h * h * pressure_gradient[j]`
with `h` from `get_upper_wall_data(0, interpolated_x, h, dhdt)` called with `h = dhdt = 0.0`
at the position `interpolated_x[j] = sum_l raw_nodal_position(l, j) * psi(l)`. -/
def get_velocity (el : HeleShawEquations) (s : Fin 2 → ℚ) (velocity : Vec ℕ) : Vec ℕ :=
  let sh := el.dshape_eulerian s
  let interpolated_x : Vec (Fin 2) := Vec.zero
  let pressure_gradient : Vec ℕ := Vec.zero
  let interpolated_x := (List.range el.nnode).foldl
    (fun x l => (List.finRange 2).foldl
      (fun (x : Vec (Fin 2)) j => x.add j (el.raw_nodal_position l j * sh.psi l)) x)
    interpolated_x
  let ipt_dummy := 0
  let hd := el.get_upper_wall_data ipt_dummy interpolated_x.val (0, 0)
  let h := hd.1
  let pressure_gradient := el.get_pressure_gradient s pressure_gradient
  (List.finRange 2).foldl
    (fun (v : Vec ℕ) j => v.set j.val (-h * h * pressure_gradient.val j.val)) velocity

/-- Local values `interpolated_p`, `interpolated_x`, `interpolated_dpdx` of the assembler. -/
structure Interpolated where
  /-- Interpolated pressure. -/
  interpolated_p : ℚ
  /-- Interpolated position. -/
  interpolated_x : Vec (Fin 2)
  /-- Interpolated pressure gradient. -/
  interpolated_dpdx : Vec (Fin 2)

/-- The interpolation loop of `fill_in_generic_residual_contribution_hele_shaw` (source lines
196-212) at an integration point with shape data `sh`. -/
def interpolate (el : HeleShawEquations) (sh : ShapeTestData) : Interpolated :=
  (List.range el.nnode).foldl
    (fun acc l =>
      let p_value := el.raw_nodal_value l
      let acc : Interpolated :=
        ⟨acc.interpolated_p + p_value * sh.psi l, acc.interpolated_x, acc.interpolated_dpdx⟩
      (List.finRange 2).foldl
        (fun acc j =>
          let acc : Interpolated :=
            ⟨acc.interpolated_p,
             acc.interpolated_x.add j (el.raw_nodal_position l j * sh.psi l),
             acc.interpolated_dpdx⟩
          ⟨acc.interpolated_p, acc.interpolated_x,
           acc.interpolated_dpdx.add j (p_value * sh.dpsidx l j)⟩)
        acc)
    { interpolated_p := 0, interpolated_x := Vec.zero, interpolated_dpdx := Vec.zero }

/-- Body of the loop over the test functions `l` (source lines 223-254) at one integration
point: `W = w * J`, `h`, `dhdt` and `interpolated_dpdx` are the local values there. -/
def assemble_node (el : HeleShawEquations) (sh : ShapeTestData) (W h dhdt : ℚ)
    (interpolated_dpdx : Vec (Fin 2)) (flag : ℕ)
    (st : Vec ℤ × DenseMatrix) (l : ℕ) : Vec ℤ × DenseMatrix :=
  let local_eqn := el.nodal_local_eqn l
  if local_eqn ≥ 0 then
    let residuals := st.1
    let jacobian := st.2
    let residuals := residuals.add local_eqn (dhdt * sh.test l * W)
    let residuals := (List.finRange 2).foldl
      (fun (r : Vec ℤ) k =>
        r.add local_eqn (h ^ 3 * interpolated_dpdx.val k * sh.dtestdx l k * W)) residuals
    if flag ≠ 0 then
      let jacobian := (List.range el.nnode).foldl
        (fun (jac : DenseMatrix) l2 =>
          let local_unknown := el.nodal_local_eqn l2
          if local_unknown ≥ 0 then
            (List.finRange 2).foldl
              (fun (jac : DenseMatrix) i =>
                jac.add local_eqn local_unknown (h ^ 3 * sh.dpsidx l2 i * sh.dtestdx l i * W))
              jac
          else jac)
        jacobian
      (residuals, jacobian)
    else (residuals, jacobian)
  else st

/-- Body of the loop over the integration points (source lines 183-256). -/
def assemble_point (el : HeleShawEquations) (flag : ℕ)
    (st : Vec ℤ × DenseMatrix) (ipt : ℕ) : Vec ℤ × DenseMatrix :=
  let w := el.weight ipt
  let sh := el.dshape_and_dtest_eulerian_at_knot_hele_shaw ipt
  let J := sh.J
  let W := w * J
  let ip := el.interpolate sh
  let hd := el.get_upper_wall_data ipt ip.interpolated_x.val (1, 0)
  let h := hd.1
  let dhdt := hd.2
  (List.range el.nnode).foldl (el.assemble_node sh W h dhdt ip.interpolated_dpdx flag) st

/-- The function `fill_in_generic_residual_contribution_hele_shaw(residuals, jacobian, flag)`:
the pair of the residual vector and the Jacobian matrix after the call. -/
def fill_in_generic_residual_contribution_hele_shaw (el : HeleShawEquations)
    (residuals : Vec ℤ) (jacobian : DenseMatrix) (flag : ℕ) : Vec ℤ × DenseMatrix :=
  (List.range el.nweight).foldl (el.assemble_point flag) (residuals, jacobian)

/-- The wrapper `fill_in_contribution_to_residuals(residuals)`: calls the generic routine with
`GeneralisedElement::Dummy_matrix` and flag 0; the result is the residual vector. -/
def fill_in_contribution_to_residuals (el : HeleShawEquations) (residuals : Vec ℤ) : Vec ℤ :=
  (el.fill_in_generic_residual_contribution_hele_shaw residuals el.Dummy_matrix 0).1

/-- The wrapper `fill_in_contribution_to_jacobian(residuals, jacobian)`: calls the generic
routine with flag 1. -/
def fill_in_contribution_to_jacobian (el : HeleShawEquations)
    (residuals : Vec ℤ) (jacobian : DenseMatrix) : Vec ℤ × DenseMatrix :=
  el.fill_in_generic_residual_contribution_hele_shaw residuals jacobian 1

/-- The interpolation loop of `get_dresidual_dnodal_coordinates` (source lines 463-478): the
pair `(interpolated_x, interpolated_dpdx)`. -/
def interpolate_dX (el : HeleShawEquations) (sh : ShapeTestDataDX) :
    Vec (Fin 2) × Vec (Fin 2) :=
  (List.range el.nnode).foldl
    (fun acc l =>
      let p_value := el.raw_nodal_value l
      (List.finRange 2).foldl
        (fun (acc : Vec (Fin 2) × Vec (Fin 2)) i =>
          let interpolated_x := acc.1.add i (el.raw_nodal_position l i * sh.psi l)
          let interpolated_dpdx := acc.2.add i (p_value * sh.dpsidx l i)
          (interpolated_x, interpolated_dpdx))
        acc)
    (Vec.zero, Vec.zero)

/-- The loops filling `d_dpdx_dX(p, q, i)` (source lines 480-493), starting from the content
`T` the tensor has before them. -/
def fill_d_dpdx_dX (el : HeleShawEquations) (sh : ShapeTestDataDX)
    (T : RankThreeTensor (Fin 2) ℕ (Fin 2)) : RankThreeTensor (Fin 2) ℕ (Fin 2) :=
  (List.range el.nnode).foldl
    (fun T q => (List.finRange 2).foldl
      (fun T p => (List.finRange 2).foldl
        (fun (T : RankThreeTensor (Fin 2) ℕ (Fin 2)) i =>
          let aux := (List.range el.nnode).foldl
            (fun aux j => aux + el.raw_nodal_value j * sh.d_dpsidx_dX p q j i) 0
          T.set p q i aux)
        T)
      T)
    T

/-- Body of the loop over the test functions `l` of `get_dresidual_dnodal_coordinates`
(source lines 518-549) at one integration point. -/
def sensitivity_node (el : HeleShawEquations) (sh : ShapeTestDataDX) (w : ℚ)
    (wall : UpperWallFluxData) (interpolated_dpdx : Vec (Fin 2))
    (d_dpdx_dX : RankThreeTensor (Fin 2) ℕ (Fin 2))
    (dresidual_dnodal_coordinates : RankThreeTensor ℤ ℕ ℕ) (l : ℕ) : RankThreeTensor ℤ ℕ ℕ :=
  let J := sh.J
  let h_cubed := wall.h * wall.h * wall.h
  let h_squared := wall.h * wall.h
  let local_eqn := el.nodal_local_eqn l
  if local_eqn ≥ 0 then
    (List.finRange 2).foldl
      (fun T p => (List.range el.nnode).foldl
        (fun (T : RankThreeTensor ℤ ℕ ℕ) q =>
          let T := T.add local_eqn p.val q
            (wall.dhdt * sh.test l * sh.dJ_dX p q + wall.d_dhdt_dx p * sh.test l * sh.psi q * J)
          let sum_dot := (List.finRange 2).foldl
            (fun (sd : ℚ × ℚ) i =>
              (sd.1 + (interpolated_dpdx.val i * (sh.dtestdx l i * sh.dJ_dX p q +
                                                  sh.d_dtestdx_dX p q l i * J) +
                       d_dpdx_dX.entry p q i * sh.dtestdx l i * J),
               sd.2 + interpolated_dpdx.val i * sh.dtestdx l i))
            (0, 0)
          let T := T.add local_eqn p.val q (sum_dot.1 * w * h_cubed)
          T.add local_eqn p.val q
            (sum_dot.2 * w * J * 3 * h_squared * wall.dhdx p * sh.psi q))
        T)
      dresidual_dnodal_coordinates
  else dresidual_dnodal_coordinates

/-- Body of the loop over the integration points of `get_dresidual_dnodal_coordinates`
(source lines 451-550); the state is the pair of the local tensor `d_dpdx_dX` and the output
tensor. -/
def sensitivity_point (el : HeleShawEquations)
    (st : RankThreeTensor (Fin 2) ℕ (Fin 2) × RankThreeTensor ℤ ℕ ℕ) (ipt : ℕ) :
    RankThreeTensor (Fin 2) ℕ (Fin 2) × RankThreeTensor ℤ ℕ ℕ :=
  let w := el.weight ipt
  let sh := el.dshape_and_dtest_eulerian_at_knot_hele_shaw_dX ipt
  let ip := el.interpolate_dX sh
  let d_dpdx_dX := el.fill_d_dpdx_dX sh st.1
  let wall := el.get_upper_wall_flux_data ipt ip.1.val
    { h := 1, dhdt := 0, dhdx := fun _ => 0, d_dhdt_dx := fun _ => 0 }
  (d_dpdx_dX, (List.range el.nnode).foldl (el.sensitivity_node sh w wall ip.2 d_dpdx_dX) st.2)

/-- The function `get_dresidual_dnodal_coordinates(dresidual_dnodal_coordinates)`: the tensor
after the call. -/
def get_dresidual_dnodal_coordinates (el : HeleShawEquations)
    (dresidual_dnodal_coordinates : RankThreeTensor ℤ ℕ ℕ) : RankThreeTensor ℤ ℕ ℕ :=
  ((List.range el.nweight).foldl el.sensitivity_point
    (⟨fun _ _ _ => 0⟩, dresidual_dnodal_coordinates)).2

/-- Body of the loop over the integration points of the steady `compute_error` (source lines
592-635); the state is `(s, error, norm)`.  The exact solution `exact_soln_pt` gives, for a
position `x`, the vector it stores in `exact_soln`. -/
def compute_error_point (el : HeleShawEquations) (exact_soln_pt : (Fin 2 → ℚ) → ℕ → ℚ)
    (st : Vec (Fin 2) × ℚ × ℚ) (ipt : ℕ) : Vec (Fin 2) × ℚ × ℚ :=
  let s := (List.finRange 2).foldl (fun (s : Vec (Fin 2)) i => s.set i (el.knot ipt i)) st.1
  let w := el.weight ipt
  let J := el.J_eulerian s.val
  let W := w * J
  let x := el.interpolated_x s.val
  let p_fe : Vec ℕ := Vec.zero
  let p_fe := el.get_velocity s.val p_fe
  let p_fe := p_fe.set 2 (el.interpolated_p_hele_shaw s.val)
  let exact_soln := exact_soln_pt x
  let en := (List.range 3).foldl
    (fun (en : ℚ × ℚ) i =>
      let norm := en.2 + exact_soln i * exact_soln i * W
      let error := en.1 + (exact_soln i - p_fe.val i) * (exact_soln i - p_fe.val i) * W
      (error, norm))
    (st.2.1, st.2.2)
  (s, en.1, en.2)

/-- The steady `compute_error(outfile, exact_soln_pt, error, norm)`: the pair `(error, norm)`
after the call, from the values the two outputs hold on entry. -/
def compute_error (el : HeleShawEquations) (exact_soln_pt : (Fin 2 → ℚ) → ℕ → ℚ)
    (_error _norm : ℚ) : ℚ × ℚ :=
  let norm : ℚ := 0
  let error : ℚ := 0
  let s : Vec (Fin 2) := Vec.zero
  let st := (List.range el.nweight).foldl (el.compute_error_point exact_soln_pt)
    (s, error, norm)
  (st.2.1, st.2.2)

/-- The time-dependent overload `compute_error(outfile, exact_soln_pt, time, error, norm)`:
its body is a single `throw`. -/
def compute_error_time_dependent (_el : HeleShawEquations)
    (_exact_soln_pt : ℚ → (Fin 2 → ℚ) → ℕ → ℚ) (_time : ℚ) (_error _norm : ℚ) :
    Except OomphLibError (ℚ × ℚ) :=
  Except.error
    { message := "There is no time-dependent compute_error() for HeleShaw elements",
      function_name := "HeleShawEquations::compute_error()" }

/-! ### Closed forms used to state what the assembler computes -/

/-- Closed form: the interpolated coordinate `sum_l X_l * psi(l)` at integration point `ipt`. -/
def knot_interpolated_x (el : HeleShawEquations) (ipt : ℕ) : Fin 2 → ℚ :=
  fun j => ∑ l in Finset.range el.nnode,
    el.raw_nodal_position l j * (el.dshape_and_dtest_eulerian_at_knot_hele_shaw ipt).psi l

/-- Closed form: the interpolated gradient `sum_l p_l * dpsidx(l, k)` at integration point
`ipt`. -/
def knot_interpolated_dpdx (el : HeleShawEquations) (ipt : ℕ) : Fin 2 → ℚ :=
  fun k => ∑ l in Finset.range el.nnode,
    el.raw_nodal_value l * (el.dshape_and_dtest_eulerian_at_knot_hele_shaw ipt).dpsidx l k

/-- The pair `(h, dhdt)` left by `get_upper_wall_data` called at the interpolated coordinate
of integration point `ipt` with `h = 1.0`, `dhdt = 0.0` on entry. -/
def knot_wall_data (el : HeleShawEquations) (ipt : ℕ) : ℚ × ℚ :=
  el.get_upper_wall_data ipt (el.knot_interpolated_x ipt) (1, 0)

/-- Closed form of the residual summand of test function `l` at integration point `ipt`:
`dhdt * test(l) * w * J + h^3 * (sum_k dpdx[k] * dtestdx(l, k)) * w * J`. -/
def residual_summand (el : HeleShawEquations) (ipt l : ℕ) : ℚ :=
  let sh := el.dshape_and_dtest_eulerian_at_knot_hele_shaw ipt
  (el.knot_wall_data ipt).2 * sh.test l * (el.weight ipt * sh.J) +
    (el.knot_wall_data ipt).1 ^ 3 *
      (∑ k : Fin 2, el.knot_interpolated_dpdx ipt k * sh.dtestdx l k) *
      (el.weight ipt * sh.J)

/-- Closed form of the Jacobian summand of the pair `(l, l2)` at integration point `ipt`:
`h^3 * (sum_i dpsidx(l2, i) * dtestdx(l, i)) * w * J`. -/
def jacobian_summand (el : HeleShawEquations) (ipt l l2 : ℕ) : ℚ :=
  let sh := el.dshape_and_dtest_eulerian_at_knot_hele_shaw ipt
  (el.knot_wall_data ipt).1 ^ 3 *
    (∑ i : Fin 2, sh.dpsidx l2 i * sh.dtestdx l i) * (el.weight ipt * sh.J)

end HeleShawEquations

/-! ### A concrete element -/

/-- Bilinear shape functions of the unit square at the point `s`, nodes ordered
`(0,0), (1,0), (0,1), (1,1)`. -/
def bilinear_psi (s : Fin 2 → ℚ) (l : ℕ) : ℚ :=
  match l with
  | 0 => (1 - s 0) * (1 - s 1)
  | 1 => s 0 * (1 - s 1)
  | 2 => (1 - s 0) * s 1
  | 3 => s 0 * s 1
  | _ => 0

/-- Derivatives of the bilinear shape functions of the unit square at the point `s`. -/
def bilinear_dpsidx (s : Fin 2 → ℚ) (l : ℕ) (j : Fin 2) : ℚ :=
  match l, j with
  | 0, 0 => -(1 - s 1)
  | 0, 1 => -(1 - s 0)
  | 1, 0 => 1 - s 1
  | 1, 1 => -(s 0)
  | 2, 0 => -(s 1)
  | 2, 1 => 1 - s 0
  | 3, 0 => s 1
  | 3, 1 => s 0
  | _, _ => 0

/-- Corner `l` of the unit square. -/
def unit_square_corner (l : ℕ) (j : Fin 2) : ℚ :=
  match l, j with
  | 1, 0 => 1
  | 2, 1 => 1
  | 3, 0 => 1
  | 3, 1 => 1
  | _, _ => 0

/-- Knots of a two-point rule on the unit square. -/
def two_point_knot (ipt : ℕ) (i : Fin 2) : ℚ :=
  match ipt, i with
  | 0, 0 => 1 / 4
  | 0, 1 => 1 / 2
  | 1, 0 => 3 / 4
  | 1, 1 => 1 / 2
  | _, _ => 0

/-- A four-node element on the unit square with the identity mapping: node 0 is pinned,
nodes 1, 2, 3 carry the equations 0, 1, 2; the pressures are `0, 1, 2, 3`; the gap width is
`h = 1 + x` with wall velocity `dh/dt = 2`; two integration points of weight `1/2`.  The
derivatives w.r.t. the nodal coordinates are those of the isoparametric mapping at the
identity: `dJ_dX(p, q) = dpsidx(q, p)` and
`d_dpsidx_dX(p, q, j, i) = -dpsidx(q, i) * dpsidx(j, p)`. -/
def unit_square_element : HeleShawEquations where
  nnode := 4
  nodal_value := fun l => (l : ℚ)
  raw_nodal_value := fun l => (l : ℚ)
  raw_nodal_position := unit_square_corner
  nodal_local_eqn := fun l => (l : ℤ) - 1
  nweight := 2
  weight := fun _ => 1 / 2
  knot := two_point_knot
  dshape_and_dtest_eulerian_at_knot_hele_shaw := fun ipt =>
    { psi := bilinear_psi (two_point_knot ipt)
      dpsidx := bilinear_dpsidx (two_point_knot ipt)
      test := bilinear_psi (two_point_knot ipt)
      dtestdx := bilinear_dpsidx (two_point_knot ipt)
      J := 1 }
  dshape_and_dtest_eulerian_at_knot_hele_shaw_dX := fun ipt =>
    { psi := bilinear_psi (two_point_knot ipt)
      dpsidx := bilinear_dpsidx (two_point_knot ipt)
      d_dpsidx_dX := fun p q j i =>
        -(bilinear_dpsidx (two_point_knot ipt) q i * bilinear_dpsidx (two_point_knot ipt) j p)
      test := bilinear_psi (two_point_knot ipt)
      dtestdx := bilinear_dpsidx (two_point_knot ipt)
      d_dtestdx_dX := fun p q j i =>
        -(bilinear_dpsidx (two_point_knot ipt) q i * bilinear_dpsidx (two_point_knot ipt) j p)
      dJ_dX := fun p q => bilinear_dpsidx (two_point_knot ipt) q p
      J := 1 }
  dshape_eulerian := fun s => { psi := bilinear_psi s, dpsidx := bilinear_dpsidx s }
  get_upper_wall_data := fun _ x _ => (1 + x 0, 2)
  get_upper_wall_flux_data := fun _ x _ =>
    { h := 1 + x 0, dhdt := 2, dhdx := fun i => if i = 0 then 1 else 0,
      d_dhdt_dx := fun _ => 0 }
  J_eulerian := fun _ => 1
  interpolated_x := fun s => s
  interpolated_p_hele_shaw := fun s => s 0 + 2 * s 1
  Dummy_matrix := ⟨fun _ _ => 0⟩

namespace HeleShawEquations

/-- The element `el` with the nodal pressures `raw_nodal_value(l)` replaced by `p l`; nothing
else changes, in particular neither the wall data nor the shape functions. -/
def set_raw_nodal_value (el : HeleShawEquations) (p : ℕ → ℚ) : HeleShawEquations :=
  { el with raw_nodal_value := p }

/-! ### Closed forms used to state what the mesh-sensitivity assembler computes -/

/-- Closed form: the interpolated coordinate `sum_l X_l * psi(l)` at integration point `ipt`,
with the shape functions of the overload used by `get_dresidual_dnodal_coordinates`. -/
def knot_interpolated_x_dX (el : HeleShawEquations) (ipt : ℕ) : Fin 2 → ℚ :=
  fun j => ∑ l in Finset.range el.nnode,
    el.raw_nodal_position l j * (el.dshape_and_dtest_eulerian_at_knot_hele_shaw_dX ipt).psi l

/-- Closed form: the interpolated gradient `sum_l p_l * dpsidx(l, k)` at integration point
`ipt`, with the shape functions of the overload used by `get_dresidual_dnodal_coordinates`. -/
def knot_interpolated_dpdx_dX (el : HeleShawEquations) (ipt : ℕ) : Fin 2 → ℚ :=
  fun k => ∑ l in Finset.range el.nnode,
    el.raw_nodal_value l * (el.dshape_and_dtest_eulerian_at_knot_hele_shaw_dX ipt).dpsidx l k

/-- Closed form: `d_dpdx_dX(p, q, i) = sum_j p_j * d_dpsidx_dX(p, q, j, i)`. -/
def knot_d_dpdx_dX (el : HeleShawEquations) (ipt : ℕ) (p : Fin 2) (q : ℕ) (i : Fin 2) : ℚ :=
  ∑ j in Finset.range el.nnode,
    el.raw_nodal_value j * (el.dshape_and_dtest_eulerian_at_knot_hele_shaw_dX ipt).d_dpsidx_dX p q j i

/-- The wall data left by `get_upper_wall_flux_data` called at the interpolated coordinate of
integration point `ipt` with `h = 1`, `dhdt = 0`, `dhdx = 0`, `d_dhdt_dx = 0` on entry. -/
def knot_wall_flux_data (el : HeleShawEquations) (ipt : ℕ) : UpperWallFluxData :=
  el.get_upper_wall_flux_data ipt (el.knot_interpolated_x_dX ipt)
    { h := 1, dhdt := 0, dhdx := fun _ => 0, d_dhdt_dx := fun _ => 0 }

/-- The amount the three `+=` statements of source lines 528-544 add to
`dresidual_dnodal_coordinates(nodal_local_eqn(l), p, q)` at integration point `ipt`:
`dhdt * test(l) * dJ_dX(p, q) + d_dhdt_dx[p] * test(l) * psi(q) * J`, then
`sum * w * h_cubed`, then `dot * w * J * 3 * h_squared * dhdx[p] * psi(q)`. -/
def sensitivity_summand (el : HeleShawEquations) (ipt l : ℕ) (p : Fin 2) (q : ℕ) : ℚ :=
  let sh := el.dshape_and_dtest_eulerian_at_knot_hele_shaw_dX ipt
  let wall := el.knot_wall_flux_data ipt
  (wall.dhdt * sh.test l * sh.dJ_dX p q + wall.d_dhdt_dx p * sh.test l * sh.psi q * sh.J) +
  (∑ i : Fin 2,
    (el.knot_interpolated_dpdx_dX ipt i *
        (sh.dtestdx l i * sh.dJ_dX p q + sh.d_dtestdx_dX p q l i * sh.J) +
      el.knot_d_dpdx_dX ipt p q i * sh.dtestdx l i * sh.J)) *
    el.weight ipt * (wall.h * wall.h * wall.h) +
  (∑ i : Fin 2, el.knot_interpolated_dpdx_dX ipt i * sh.dtestdx l i) *
    el.weight ipt * sh.J * 3 * (wall.h * wall.h) * wall.dhdx p * sh.psi q

/-- The summand the specification states for `dresidual_dnodal_coordinates`: the residual
summand `(dhdt * test + h^3 * grad p . grad test) * w * J` differentiated with respect to
`X_{pq}`, every term carrying the quadrature weight `w`:
`w * [ dhdt * test(l) * dJ_dX(p,q) + d_dhdt_dx[p] * psi(q) * test(l) * J
  + h^3 * sum_i ( dpdx[i] * (dtestdx(l,i) * dJ_dX(p,q) + d_dtestdx_dX(p,q,l,i) * J)
                  + d_dpdx_dX(p,q,i) * dtestdx(l,i) * J )
  + 3 * h^2 * dhdx[p] * psi(q) * J * sum_i dpdx[i] * dtestdx(l,i) ]`. -/
def product_rule_summand (el : HeleShawEquations) (ipt l : ℕ) (p : Fin 2) (q : ℕ) : ℚ :=
  let sh := el.dshape_and_dtest_eulerian_at_knot_hele_shaw_dX ipt
  let wall := el.knot_wall_flux_data ipt
  el.weight ipt *
    (wall.dhdt * sh.test l * sh.dJ_dX p q + wall.d_dhdt_dx p * sh.psi q * sh.test l * sh.J +
     wall.h ^ 3 * (∑ i : Fin 2,
      (el.knot_interpolated_dpdx_dX ipt i *
          (sh.dtestdx l i * sh.dJ_dX p q + sh.d_dtestdx_dX p q l i * sh.J) +
        el.knot_d_dpdx_dX ipt p q i * sh.dtestdx l i * sh.J)) +
     3 * wall.h ^ 2 * wall.dhdx p * sh.psi q * sh.J *
      (∑ i : Fin 2, el.knot_interpolated_dpdx_dX ipt i * sh.dtestdx l i))

/-- The element `el` with the quadrature rule given by the list `rule` of (knot, weight)
pairs: `nweight()` is the length of the list, `knot(ipt, i)` and `weight(ipt)` read its entry
`ipt`. -/
def set_integral_pt (el : HeleShawEquations) (rule : List ((Fin 2 → ℚ) × ℚ)) :
    HeleShawEquations :=
  { el with
    nweight := rule.length
    knot := fun ipt => (rule.getD ipt (fun _ => 0, 0)).1
    weight := fun ipt => (rule.getD ipt (fun _ => 0, 0)).2 }

/-! ### Closed forms used to state what `compute_error` computes -/

/-- The finite-element values compared with the exact solution at local coordinate `s`:
entries 0 and 1 are the velocity of `get_velocity`, entry 2 is the interpolated pressure. -/
def fe_values (el : HeleShawEquations) (s : Fin 2 → ℚ) (i : ℕ) : ℚ :=
  if i = 2 then el.interpolated_p_hele_shaw s else (el.get_velocity s Vec.zero).val i

/-- Contribution of a quadrature point with knot `s` and weight `w` to `error`:
`w * J * sum_{i<3} (exact_i - fe_i)^2`. -/
def error_summand (el : HeleShawEquations) (exact_soln_pt : (Fin 2 → ℚ) → ℕ → ℚ)
    (s : Fin 2 → ℚ) (w : ℚ) : ℚ :=
  w * el.J_eulerian s *
    ∑ i in Finset.range 3, (exact_soln_pt (el.interpolated_x s) i - el.fe_values s i) ^ 2

/-- Contribution of a quadrature point with knot `s` and weight `w` to `norm`:
`w * J * sum_{i<3} exact_i^2`. -/
def norm_summand (el : HeleShawEquations) (exact_soln_pt : (Fin 2 → ℚ) → ℕ → ℚ)
    (s : Fin 2 → ℚ) (w : ℚ) : ℚ :=
  w * el.J_eulerian s * ∑ i in Finset.range 3, exact_soln_pt (el.interpolated_x s) i ^ 2

end HeleShawEquations

/-! ### Further concrete elements -/

/-- The one-point rule of the unit square: the centre, with weight 1. -/
def midpoint_rule : List ((Fin 2 → ℚ) × ℚ) := [(fun _ => 1 / 2, 1)]

/-- The four-node element on the unit square with the identity mapping (`J = 1`), all four
corner nodes `(0,0), (1,0), (0,1), (1,1)` free with the equations `0, 1, 2, 3`, bilinear shape
functions equal to the test functions, constant wall data `h = 1`, `dh/dt = 0`, nodal
pressures `p = x`, i.e. `0, 1, 0, 1`, and the quadrature rule given by the list `rule` of
(knot, weight) pairs. -/
def unit_square_poisson_element (rule : List ((Fin 2 → ℚ) × ℚ)) : HeleShawEquations where
  nnode := 4
  nodal_value := fun l => unit_square_corner l 0
  raw_nodal_value := fun l => unit_square_corner l 0
  raw_nodal_position := unit_square_corner
  nodal_local_eqn := fun l => (l : ℤ)
  nweight := rule.length
  weight := fun ipt => (rule.getD ipt (fun _ => 0, 0)).2
  knot := fun ipt => (rule.getD ipt (fun _ => 0, 0)).1
  dshape_and_dtest_eulerian_at_knot_hele_shaw := fun ipt =>
    { psi := bilinear_psi (rule.getD ipt (fun _ => 0, 0)).1
      dpsidx := bilinear_dpsidx (rule.getD ipt (fun _ => 0, 0)).1
      test := bilinear_psi (rule.getD ipt (fun _ => 0, 0)).1
      dtestdx := bilinear_dpsidx (rule.getD ipt (fun _ => 0, 0)).1
      J := 1 }
  dshape_and_dtest_eulerian_at_knot_hele_shaw_dX := fun ipt =>
    { psi := bilinear_psi (rule.getD ipt (fun _ => 0, 0)).1
      dpsidx := bilinear_dpsidx (rule.getD ipt (fun _ => 0, 0)).1
      d_dpsidx_dX := fun p q j i =>
        -(bilinear_dpsidx (rule.getD ipt (fun _ => 0, 0)).1 q i *
          bilinear_dpsidx (rule.getD ipt (fun _ => 0, 0)).1 j p)
      test := bilinear_psi (rule.getD ipt (fun _ => 0, 0)).1
      dtestdx := bilinear_dpsidx (rule.getD ipt (fun _ => 0, 0)).1
      d_dtestdx_dX := fun p q j i =>
        -(bilinear_dpsidx (rule.getD ipt (fun _ => 0, 0)).1 q i *
          bilinear_dpsidx (rule.getD ipt (fun _ => 0, 0)).1 j p)
      dJ_dX := fun p q => bilinear_dpsidx (rule.getD ipt (fun _ => 0, 0)).1 q p
      J := 1 }
  dshape_eulerian := fun s => { psi := bilinear_psi s, dpsidx := bilinear_dpsidx s }
  get_upper_wall_data := fun _ _ _ => (1, 0)
  get_upper_wall_flux_data := fun _ _ _ =>
    { h := 1, dhdt := 0, dhdx := fun _ => 0, d_dhdt_dx := fun _ => 0 }
  J_eulerian := fun _ => 1
  interpolated_x := fun s => s
  interpolated_p_hele_shaw := fun s => s 0
  Dummy_matrix := ⟨fun _ _ => 0⟩

/-- Eulerian derivatives of the bilinear shape functions when the unit square is mapped by
`x = 1 - s_0`, `y = s_1`: the derivative in `x` changes sign. -/
def mirrored_dpsidx (s : Fin 2 → ℚ) (l : ℕ) (j : Fin 2) : ℚ :=
  if j = 0 then -(bilinear_dpsidx s l j) else bilinear_dpsidx s l j

/-- An inverted four-node element: the local nodes `0, 1, 2, 3` sit at `(1,0), (0,0), (1,1),
(0,1)`, so the mapping `x = 1 - s_0`, `y = s_1` has the Jacobian determinant `J = -1` at every
point.  All nodes are free, `h = 1`, `dh/dt = 0`, the nodal pressures are `p = x`, and the
rule is the midpoint rule. -/
def mirrored_square_element : HeleShawEquations :=
  { unit_square_poisson_element midpoint_rule with
    nodal_value := fun l => 1 - unit_square_corner l 0
    raw_nodal_value := fun l => 1 - unit_square_corner l 0
    raw_nodal_position := fun l j => if j = 0 then 1 - unit_square_corner l 0
      else unit_square_corner l j
    dshape_and_dtest_eulerian_at_knot_hele_shaw := fun _ =>
      { psi := bilinear_psi (fun _ => 1 / 2)
        dpsidx := mirrored_dpsidx (fun _ => 1 / 2)
        test := bilinear_psi (fun _ => 1 / 2)
        dtestdx := mirrored_dpsidx (fun _ => 1 / 2)
        J := -1 }
    dshape_eulerian := fun s => { psi := bilinear_psi s, dpsidx := mirrored_dpsidx s }
    J_eulerian := fun _ => -1
    interpolated_x := fun s j => if j = 0 then 1 - s 0 else s j }

/-- A two-node element whose test functions differ from its shape functions (one
integration point of weight 1, `J = 1`, `h = 1`, both nodes free with the equations 0, 1):
`dpsidx(0, .) = (1, 0)`, `dpsidx(1, .) = (2, 0)`, `dtestdx(0, .) = (3, 0)`,
`dtestdx(1, .) = (5, 0)`. -/
def petrov_galerkin_element : HeleShawEquations :=
  { unit_square_poisson_element midpoint_rule with
    nnode := 2
    dshape_and_dtest_eulerian_at_knot_hele_shaw := fun _ =>
      { psi := fun _ => 1 / 2
        dpsidx := fun l j => if j = 0 then (if l = 0 then 1 else 2) else 0
        test := fun _ => 1 / 2
        dtestdx := fun l j => if j = 0 then (if l = 0 then 3 else 5) else 0
        J := 1 } }

namespace HeleShawEquations

/-- Outcome of a call `fill_in_generic_residual_contribution_hele_shaw(residuals, jacobian,
flag)` as its caller sees it.  The body (source lines 163-257) contains no `throw` and tests
neither `J` nor `W`: whatever value of `J` the shape-function member returns, the call returns
the pair assembled from it. -/
def fill_in_generic_residual_contribution_hele_shaw_outcome (el : HeleShawEquations)
    (residuals : Vec ℤ) (jacobian : DenseMatrix) (flag : ℕ) :
    Except OomphLibError (Vec ℤ × DenseMatrix) :=
  Except.ok (el.fill_in_generic_residual_contribution_hele_shaw residuals jacobian flag)

/-- The element `el` with every quadrature weight multiplied by `c`; nothing else changes. -/
def scale_weights (el : HeleShawEquations) (c : ℚ) : HeleShawEquations :=
  { el with weight := fun ipt => c * el.weight ipt }

end HeleShawEquations

/-! ## Lemmas on buffers and loops -/

theorem finRange_two_eq : List.finRange 2 = [0, 1] := rfl

theorem vec_set_val {ι : Type} [DecidableEq ι] (v : Vec ι) (i j : ι) (x : ℚ) :
    (v.set i x).val j = if j = i then x else v.val j := by
  by_cases h : j = i <;> simp [Vec.set, Function.update, h]

theorem vec_add_val {ι : Type} [DecidableEq ι] (v : Vec ι) (i j : ι) (x : ℚ) :
    (v.add i x).val j = v.val j + (if i = j then x else 0) := by
  by_cases h : i = j
  · subst h; simp [Vec.add, Vec.set]
  · have h' : ¬ j = i := fun e => h e.symm
    simp [Vec.add, Vec.set, Function.update, h, h']

theorem dense_matrix_add_entry (m : DenseMatrix) (a b a' b' : ℤ) (x : ℚ) :
    (m.add a b x).entry a' b' = m.entry a' b' + (if a = a' ∧ b = b' then x else 0) := by
  by_cases ha : a = a'
  · subst ha
    by_cases hb : b = b'
    · subst hb; simp [DenseMatrix.add]
    · have hb' : ¬ b' = b := fun e => hb e.symm
      simp [DenseMatrix.add, Function.update, hb, hb']
  · have ha' : ¬ a' = a := fun e => ha e.symm
    simp [DenseMatrix.add, Function.update, ha, ha']

theorem rank_three_set_entry {α β γ : Type} [DecidableEq α] [DecidableEq β]
    [DecidableEq γ] (T : RankThreeTensor α β γ) (a a' : α) (b b' : β) (c c' : γ) (x : ℚ) :
    (T.set a b c x).entry a' b' c' =
      if a = a' ∧ b = b' ∧ c = c' then x else T.entry a' b' c' := by
  by_cases ha : a = a'
  · subst ha
    by_cases hb : b = b'
    · subst hb
      by_cases hc : c = c'
      · subst hc; simp [RankThreeTensor.set]
      · have hc' : ¬ c' = c := fun e => hc e.symm
        simp [RankThreeTensor.set, Function.update, hc, hc']
    · have hb' : ¬ b' = b := fun e => hb e.symm
      simp [RankThreeTensor.set, Function.update, hb, hb']
  · have ha' : ¬ a' = a := fun e => ha e.symm
    simp [RankThreeTensor.set, Function.update, ha, ha']

theorem rank_three_add_entry {α β γ : Type} [DecidableEq α] [DecidableEq β]
    [DecidableEq γ] (T : RankThreeTensor α β γ) (a a' : α) (b b' : β) (c c' : γ) (x : ℚ) :
    (T.add a b c x).entry a' b' c' =
      T.entry a' b' c' + (if a = a' ∧ b = b' ∧ c = c' then x else 0) := by
  unfold RankThreeTensor.add
  rw [rank_three_set_entry]
  by_cases h : a = a' ∧ b = b' ∧ c = c'
  · obtain ⟨rfl, rfl, rfl⟩ := h
    simp
  · simp [h]

theorem foldl_obs_add {σ α : Type} (F : σ → α → σ) (obs : σ → ℚ) (g : α → ℚ)
    (hstep : ∀ s x, obs (F s x) = obs s + g x) (xs : List α) (s : σ) :
    obs (xs.foldl F s) = obs s + (xs.map g).sum := by
  induction xs generalizing s with
  | nil => simp
  | cons x xs ih =>
    simp only [List.foldl_cons, List.map_cons, List.sum_cons]
    rw [ih, hstep]
    ring

theorem list_sum_map_range (g : ℕ → ℚ) (n : ℕ) :
    ((List.range n).map g).sum = ∑ i in Finset.range n, g i := by
  induction n with
  | zero => simp
  | succ n ih => simp [List.range_succ, Finset.sum_range_succ, ih]

theorem foldl_range_obs_add {σ : Type} (F : σ → ℕ → σ) (obs : σ → ℚ) (g : ℕ → ℚ)
    (hstep : ∀ s x, obs (F s x) = obs s + g x) (n : ℕ) (s : σ) :
    obs ((List.range n).foldl F s) = obs s + ∑ i in Finset.range n, g i := by
  rw [foldl_obs_add F obs g hstep, list_sum_map_range]

theorem foldl_fin_two_obs_add {σ : Type} (F : σ → Fin 2 → σ) (obs : σ → ℚ) (g : Fin 2 → ℚ)
    (hstep : ∀ s x, obs (F s x) = obs s + g x) (s : σ) :
    obs ((List.finRange 2).foldl F s) = obs s + ∑ i : Fin 2, g i := by
  rw [foldl_obs_add F obs g hstep, finRange_two_eq, Fin.sum_univ_two]
  simp

theorem sum_ite_comm (c : ℕ → Prop) [DecidablePred c] (t : ℕ → ℕ → ℚ) (m n : ℕ) :
    ∑ i in Finset.range m, ∑ l in Finset.range n, (if c l then t i l else 0) =
      ∑ l in Finset.range n, (if c l then ∑ i in Finset.range m, t i l else 0) := by
  rw [Finset.sum_comm]
  refine Finset.sum_congr rfl (fun l _ => ?_)
  by_cases h : c l <;> simp [h]

namespace HeleShawEquations

/-! ## The residual and Jacobian assembler -/

theorem interpolate_dpdx (el : HeleShawEquations) (sh : ShapeTestData) (k : Fin 2) :
    (el.interpolate sh).interpolated_dpdx.val k =
      ∑ l in Finset.range el.nnode, el.raw_nodal_value l * sh.dpsidx l k := by
  unfold interpolate
  refine (foldl_range_obs_add _ (fun (acc : Interpolated) => acc.interpolated_dpdx.val k)
    (fun l => el.raw_nodal_value l * sh.dpsidx l k) ?_ _ _).trans ?_
  swap
  · simp [Vec.zero]
  · intro acc l
    fin_cases k <;> simp [finRange_two_eq, vec_add_val]

theorem interpolate_x (el : HeleShawEquations) (sh : ShapeTestData) (j : Fin 2) :
    (el.interpolate sh).interpolated_x.val j =
      ∑ l in Finset.range el.nnode, el.raw_nodal_position l j * sh.psi l := by
  unfold interpolate
  refine (foldl_range_obs_add _ (fun (acc : Interpolated) => acc.interpolated_x.val j)
    (fun l => el.raw_nodal_position l j * sh.psi l) ?_ _ _).trans ?_
  swap
  · simp [Vec.zero]
  · intro acc l
    fin_cases j <;> simp [finRange_two_eq, vec_add_val]

theorem interpolate_x_eq (el : HeleShawEquations) (ipt : ℕ) :
    (el.interpolate (el.dshape_and_dtest_eulerian_at_knot_hele_shaw ipt)).interpolated_x.val =
      el.knot_interpolated_x ipt := by
  funext j
  exact interpolate_x el _ j

theorem interpolate_dpdx_eq (el : HeleShawEquations) (ipt : ℕ) :
    (el.interpolate (el.dshape_and_dtest_eulerian_at_knot_hele_shaw ipt)).interpolated_dpdx.val =
      el.knot_interpolated_dpdx ipt := by
  funext k
  exact interpolate_dpdx el _ k

theorem assemble_node_residual (el : HeleShawEquations) (sh : ShapeTestData) (W h dhdt : ℚ)
    (dpdx : Vec (Fin 2)) (flag : ℕ) (st : Vec ℤ × DenseMatrix) (l : ℕ) (e : ℤ) :
    (el.assemble_node sh W h dhdt dpdx flag st l).1.val e = st.1.val e +
      (if 0 ≤ el.nodal_local_eqn l ∧ el.nodal_local_eqn l = e then
        dhdt * sh.test l * W + h ^ 3 * (∑ k : Fin 2, dpdx.val k * sh.dtestdx l k) * W
      else 0) := by
  unfold assemble_node
  by_cases h0 : 0 ≤ el.nodal_local_eqn l
  · by_cases he : el.nodal_local_eqn l = e
    · subst he
      by_cases hf : flag = 0 <;>
        simp [h0, hf, finRange_two_eq, vec_add_val, Fin.sum_univ_two] <;> ring
    · by_cases hf : flag = 0 <;>
        simp [h0, hf, he, finRange_two_eq, vec_add_val]
  · simp [h0]

theorem assemble_node_jacobian (el : HeleShawEquations) (sh : ShapeTestData) (W h dhdt : ℚ)
    (dpdx : Vec (Fin 2)) (flag : ℕ) (st : Vec ℤ × DenseMatrix) (l : ℕ) (a b : ℤ) :
    (el.assemble_node sh W h dhdt dpdx flag st l).2.entry a b = st.2.entry a b +
      (if flag ≠ 0 ∧ 0 ≤ el.nodal_local_eqn l ∧ el.nodal_local_eqn l = a then
        ∑ l2 in Finset.range el.nnode,
          (if 0 ≤ el.nodal_local_eqn l2 ∧ el.nodal_local_eqn l2 = b then
            h ^ 3 * (∑ i : Fin 2, sh.dpsidx l2 i * sh.dtestdx l i) * W else 0)
      else 0) := by
  unfold assemble_node
  by_cases h0 : 0 ≤ el.nodal_local_eqn l
  · by_cases hf : flag = 0
    · simp [h0, hf]
    · simp only [ge_iff_le, h0, if_true, hf, ne_eq, not_false_eq_true, true_and]
      refine (foldl_range_obs_add _ (fun (jac : DenseMatrix) => jac.entry a b)
        (fun l2 => if el.nodal_local_eqn l = a ∧
            (0 ≤ el.nodal_local_eqn l2 ∧ el.nodal_local_eqn l2 = b) then
            h ^ 3 * (∑ i : Fin 2, sh.dpsidx l2 i * sh.dtestdx l i) * W else 0) ?_ _ _).trans ?_
      swap
      · by_cases ha : el.nodal_local_eqn l = a <;> simp [ha]
      · intro jac l2
        by_cases h2 : 0 ≤ el.nodal_local_eqn l2
        · by_cases hab : el.nodal_local_eqn l = a ∧ el.nodal_local_eqn l2 = b
          · obtain ⟨rfl, rfl⟩ := hab
            simp [h2, finRange_two_eq, dense_matrix_add_entry, Fin.sum_univ_two]; ring
          · simp only [h2, ge_iff_le, if_true, finRange_two_eq, List.foldl_cons, List.foldl_nil,
              dense_matrix_add_entry, hab, true_and, if_false, add_zero]
        · simp [h2]
  · simp [h0]

theorem assemble_point_residual (el : HeleShawEquations) (flag : ℕ)
    (st : Vec ℤ × DenseMatrix) (ipt : ℕ) (e : ℤ) :
    (el.assemble_point flag st ipt).1.val e = st.1.val e +
      ∑ l in Finset.range el.nnode,
        (if 0 ≤ el.nodal_local_eqn l ∧ el.nodal_local_eqn l = e then
          el.residual_summand ipt l else 0) := by
  unfold assemble_point
  simp only [interpolate_x_eq]
  refine (foldl_range_obs_add _ (fun (st : Vec ℤ × DenseMatrix) => st.1.val e) _
    (fun st l => assemble_node_residual el _ _ _ _ _ flag st l e) _ _).trans ?_
  simp only [interpolate_dpdx_eq]
  rfl

theorem assemble_point_jacobian (el : HeleShawEquations) (flag : ℕ)
    (st : Vec ℤ × DenseMatrix) (ipt : ℕ) (a b : ℤ) :
    (el.assemble_point flag st ipt).2.entry a b = st.2.entry a b +
      ∑ l in Finset.range el.nnode,
        (if flag ≠ 0 ∧ 0 ≤ el.nodal_local_eqn l ∧ el.nodal_local_eqn l = a then
          ∑ l2 in Finset.range el.nnode,
            (if 0 ≤ el.nodal_local_eqn l2 ∧ el.nodal_local_eqn l2 = b then
              el.jacobian_summand ipt l l2 else 0)
        else 0) := by
  unfold assemble_point
  simp only [interpolate_x_eq]
  exact foldl_range_obs_add _ (fun (st : Vec ℤ × DenseMatrix) => st.2.entry a b) _
    (fun st l => assemble_node_jacobian el _ _ _ _ _ flag st l a b) _ _

/-- Entry `e` of the residual vector after the generic routine. -/
theorem generic_residual_entry (el : HeleShawEquations) (residuals : Vec ℤ)
    (jacobian : DenseMatrix) (flag : ℕ) (e : ℤ) :
    (el.fill_in_generic_residual_contribution_hele_shaw residuals jacobian flag).1.val e =
      residuals.val e + ∑ l in Finset.range el.nnode,
        (if 0 ≤ el.nodal_local_eqn l ∧ el.nodal_local_eqn l = e then
          ∑ ipt in Finset.range el.nweight, el.residual_summand ipt l else 0) := by
  unfold fill_in_generic_residual_contribution_hele_shaw
  rw [← sum_ite_comm]
  exact foldl_range_obs_add _ (fun (st : Vec ℤ × DenseMatrix) => st.1.val e) _
    (fun st ipt => assemble_point_residual el flag st ipt e) _ _

/-- Entry `(a, b)` of the Jacobian matrix after the generic routine. -/
theorem generic_jacobian_entry (el : HeleShawEquations) (residuals : Vec ℤ)
    (jacobian : DenseMatrix) (flag : ℕ) (a b : ℤ) :
    (el.fill_in_generic_residual_contribution_hele_shaw residuals jacobian flag).2.entry a b =
      jacobian.entry a b + ∑ l in Finset.range el.nnode,
        (if flag ≠ 0 ∧ 0 ≤ el.nodal_local_eqn l ∧ el.nodal_local_eqn l = a then
          ∑ l2 in Finset.range el.nnode,
            (if 0 ≤ el.nodal_local_eqn l2 ∧ el.nodal_local_eqn l2 = b then
              ∑ ipt in Finset.range el.nweight, el.jacobian_summand ipt l l2 else 0)
        else 0) := by
  unfold fill_in_generic_residual_contribution_hele_shaw
  have hstep := foldl_range_obs_add (el.assemble_point flag)
    (fun (st : Vec ℤ × DenseMatrix) => st.2.entry a b) _
    (fun st ipt => assemble_point_jacobian el flag st ipt a b) el.nweight (residuals, jacobian)
  refine hstep.trans ?_
  congr 1
  rw [sum_ite_comm]
  refine Finset.sum_congr rfl (fun l _ => ?_)
  split_ifs
  · exact sum_ite_comm _ _ _ _
  · rfl

/-- C1: for either flag value, entry `e` of the residual after
`fill_in_generic_residual_contribution_hele_shaw` is the entry before the call plus, for every
node `l` of the element whose local equation number is `e >= 0`, the sum over the integration
points of `dhdt * test(l) * (w * J) + h^3 * (sum_k dpdx[k] * dtestdx(l, k)) * (w * J)`, where
`dpdx[k] = sum_n p_n * dpsidx(n, k)` and `(h, dhdt)` is the wall data at the interpolated
coordinate `sum_n X_n * psi(n)`. -/
theorem generic_residual_adds_weak_form (el : HeleShawEquations) (residuals : Vec ℤ)
    (jacobian : DenseMatrix) (flag : ℕ) (e : ℤ) :
    (el.fill_in_generic_residual_contribution_hele_shaw residuals jacobian flag).1.val e =
      residuals.val e + ∑ l in Finset.range el.nnode,
        (if 0 ≤ el.nodal_local_eqn l ∧ el.nodal_local_eqn l = e then
          ∑ ipt in Finset.range el.nweight,
            ((el.get_upper_wall_data ipt
                (fun j => ∑ n in Finset.range el.nnode, el.raw_nodal_position n j *
                  (el.dshape_and_dtest_eulerian_at_knot_hele_shaw ipt).psi n) (1, 0)).2 *
              (el.dshape_and_dtest_eulerian_at_knot_hele_shaw ipt).test l *
              (el.weight ipt * (el.dshape_and_dtest_eulerian_at_knot_hele_shaw ipt).J) +
            (el.get_upper_wall_data ipt
                (fun j => ∑ n in Finset.range el.nnode, el.raw_nodal_position n j *
                  (el.dshape_and_dtest_eulerian_at_knot_hele_shaw ipt).psi n) (1, 0)).1 ^ 3 *
              (∑ k : Fin 2,
                (∑ n in Finset.range el.nnode, el.raw_nodal_value n *
                  (el.dshape_and_dtest_eulerian_at_knot_hele_shaw ipt).dpsidx n k) *
                (el.dshape_and_dtest_eulerian_at_knot_hele_shaw ipt).dtestdx l k) *
              (el.weight ipt * (el.dshape_and_dtest_eulerian_at_knot_hele_shaw ipt).J))
        else 0) :=
  generic_residual_entry el residuals jacobian flag e

/-- C2: when the Jacobian is requested (`flag` non-zero, in particular `flag = 1`), entry
`(a, b)` of the Jacobian after `fill_in_generic_residual_contribution_hele_shaw` is the entry
before the call plus, for every pair of nodes `(l, l2)` with local equation numbers
`a >= 0` and `b >= 0`, the sum over the integration points of
`h^3 * (sum_i dpsidx(l2, i) * dtestdx(l, i)) * (w * J)`. -/
theorem generic_jacobian_adds_stiffness (el : HeleShawEquations) (residuals : Vec ℤ)
    (jacobian : DenseMatrix) (flag : ℕ) (hflag : flag ≠ 0) (a b : ℤ) :
    (el.fill_in_generic_residual_contribution_hele_shaw residuals jacobian flag).2.entry a b =
      jacobian.entry a b + ∑ l in Finset.range el.nnode, ∑ l2 in Finset.range el.nnode,
        (if (0 ≤ el.nodal_local_eqn l ∧ el.nodal_local_eqn l = a) ∧
            (0 ≤ el.nodal_local_eqn l2 ∧ el.nodal_local_eqn l2 = b) then
          ∑ ipt in Finset.range el.nweight,
            (el.get_upper_wall_data ipt
                (fun j => ∑ n in Finset.range el.nnode, el.raw_nodal_position n j *
                  (el.dshape_and_dtest_eulerian_at_knot_hele_shaw ipt).psi n) (1, 0)).1 ^ 3 *
              (∑ i : Fin 2,
                (el.dshape_and_dtest_eulerian_at_knot_hele_shaw ipt).dpsidx l2 i *
                (el.dshape_and_dtest_eulerian_at_knot_hele_shaw ipt).dtestdx l i) *
              (el.weight ipt * (el.dshape_and_dtest_eulerian_at_knot_hele_shaw ipt).J)
        else 0) := by
  rw [generic_jacobian_entry]
  congr 1
  refine Finset.sum_congr rfl (fun l _ => ?_)
  by_cases hl : 0 ≤ el.nodal_local_eqn l ∧ el.nodal_local_eqn l = a
  · rw [if_pos ⟨hflag, hl⟩]
    refine Finset.sum_congr rfl (fun l2 _ => ?_)
    by_cases h2 : 0 ≤ el.nodal_local_eqn l2 ∧ el.nodal_local_eqn l2 = b
    · rw [if_pos h2, if_pos ⟨hl, h2⟩]
      rfl
    · rw [if_neg h2, if_neg (fun h => h2 h.2)]
  · rw [if_neg (fun h => hl h.2)]
    symm
    refine Finset.sum_eq_zero (fun l2 _ => ?_)
    rw [if_neg (fun h => hl h.1)]

/-- Witness for C2 on the unit-square element with `flag = 1`. -/
theorem generic_jacobian_adds_stiffness_witness :
    (1 : ℕ) ≠ 0 ∧
    (unit_square_element.fill_in_contribution_to_jacobian Vec.zero ⟨fun _ _ => 0⟩).2.entry 0 1
      = -819 / 512 := by
  refine ⟨by decide, ?_⟩
  unfold fill_in_contribution_to_jacobian
  rw [generic_jacobian_adds_stiffness unit_square_element Vec.zero ⟨fun _ _ => 0⟩ 1
    (by decide) 0 1]
  simp [unit_square_element, Finset.sum_range_succ, Fin.sum_univ_two, bilinear_psi,
    bilinear_dpsidx, unit_square_corner, two_point_knot]
  norm_num

theorem sum_ite_eq_zero_of_forall (n : ℕ) (c : ℕ → Prop) [DecidablePred c] (t : ℕ → ℚ)
    (h : ∀ l < n, ¬ c l) : ∑ l in Finset.range n, (if c l then t l else 0) = 0 := by
  refine Finset.sum_eq_zero (fun l hl => ?_)
  rw [if_neg (h l (Finset.mem_range.mp hl))]

/-- Frame of the residual: an index that is not the equation number of a free node keeps its
value. -/
theorem generic_residual_frame (el : HeleShawEquations) (residuals : Vec ℤ)
    (jacobian : DenseMatrix) (flag : ℕ) (e : ℤ)
    (h : ∀ l < el.nnode, 0 ≤ el.nodal_local_eqn l → el.nodal_local_eqn l ≠ e) :
    (el.fill_in_generic_residual_contribution_hele_shaw residuals jacobian flag).1.val e =
      residuals.val e := by
  rw [generic_residual_entry, sum_ite_eq_zero_of_forall, add_zero]
  exact fun l hl hc => h l hl hc.1 hc.2

/-- Frame of the Jacobian: an entry whose row or column is not the equation number of a free
node keeps its value. -/
theorem generic_jacobian_frame (el : HeleShawEquations) (residuals : Vec ℤ)
    (jacobian : DenseMatrix) (flag : ℕ) (a b : ℤ)
    (h : (∀ l < el.nnode, 0 ≤ el.nodal_local_eqn l → el.nodal_local_eqn l ≠ a) ∨
         (∀ l < el.nnode, 0 ≤ el.nodal_local_eqn l → el.nodal_local_eqn l ≠ b)) :
    (el.fill_in_generic_residual_contribution_hele_shaw residuals jacobian flag).2.entry a b =
      jacobian.entry a b := by
  rw [generic_jacobian_entry]
  rcases h with h | h
  · rw [sum_ite_eq_zero_of_forall, add_zero]
    exact fun l hl hc => h l hl hc.2.1 hc.2.2
  · have hz : ∀ l ∈ Finset.range el.nnode,
        (if flag ≠ 0 ∧ 0 ≤ el.nodal_local_eqn l ∧ el.nodal_local_eqn l = a then
          ∑ l2 in Finset.range el.nnode,
            (if 0 ≤ el.nodal_local_eqn l2 ∧ el.nodal_local_eqn l2 = b then
              ∑ ipt in Finset.range el.nweight, el.jacobian_summand ipt l l2 else 0)
        else 0) = 0 := by
      intro l _
      split_ifs
      · exact sum_ite_eq_zero_of_forall _ _ _ (fun l2 hl2 hc => h l2 hl2 hc.1 hc.2)
      · rfl
    rw [Finset.sum_eq_zero hz, add_zero]

/-- C3: constrained degrees of freedom are skipped.  A node with a negative local equation
number leaves the residual and the Jacobian exactly as they were; after the whole call every
residual entry whose index is not the equation number of a free node, and every Jacobian
entry whose row or column is not the equation number of a free node, is unchanged; in
particular no entry with a negative index is written. -/
theorem constrained_dofs_are_skipped (el : HeleShawEquations) (residuals : Vec ℤ)
    (jacobian : DenseMatrix) (flag : ℕ) :
    (∀ (sh : ShapeTestData) (W h dhdt : ℚ) (dpdx : Vec (Fin 2)) (st : Vec ℤ × DenseMatrix)
        (l : ℕ), el.nodal_local_eqn l < 0 → el.assemble_node sh W h dhdt dpdx flag st l = st) ∧
    (∀ e : ℤ, (∀ l < el.nnode, 0 ≤ el.nodal_local_eqn l → el.nodal_local_eqn l ≠ e) →
      (el.fill_in_generic_residual_contribution_hele_shaw residuals jacobian flag).1.val e =
        residuals.val e) ∧
    (∀ a b : ℤ,
      ((∀ l < el.nnode, 0 ≤ el.nodal_local_eqn l → el.nodal_local_eqn l ≠ a) ∨
       (∀ l < el.nnode, 0 ≤ el.nodal_local_eqn l → el.nodal_local_eqn l ≠ b)) →
      (el.fill_in_generic_residual_contribution_hele_shaw residuals jacobian flag).2.entry a b =
        jacobian.entry a b) ∧
    (∀ e : ℤ, e < 0 →
      (el.fill_in_generic_residual_contribution_hele_shaw residuals jacobian flag).1.val e =
        residuals.val e) ∧
    (∀ a b : ℤ, a < 0 ∨ b < 0 →
      (el.fill_in_generic_residual_contribution_hele_shaw residuals jacobian flag).2.entry a b =
        jacobian.entry a b) := by
  refine ⟨?_, ?_, ?_, ?_, ?_⟩
  · intro sh W h dhdt dpdx st l hl
    unfold assemble_node
    simp [not_le.mpr hl]
  · exact fun e h => generic_residual_frame el residuals jacobian flag e h
  · exact fun a b h => generic_jacobian_frame el residuals jacobian flag a b h
  · intro e he
    refine generic_residual_frame el residuals jacobian flag e (fun l _ h0 heq => ?_)
    omega
  · intro a b hab
    refine generic_jacobian_frame el residuals jacobian flag a b ?_
    rcases hab with ha | hb
    · exact Or.inl (fun l _ h0 heq => by omega)
    · exact Or.inr (fun l _ h0 heq => by omega)

/-- Witness for C3 on the unit-square element, whose node 0 is pinned (equation number -1)
and whose free nodes carry the equations 0, 1, 2. -/
theorem constrained_dofs_are_skipped_witness :
    unit_square_element.nodal_local_eqn 0 < 0 ∧
    (unit_square_element.fill_in_generic_residual_contribution_hele_shaw
      ⟨fun _ => 5⟩ ⟨fun _ _ => 7⟩ 1).1.val (-1) = 5 ∧
    (unit_square_element.fill_in_generic_residual_contribution_hele_shaw
      ⟨fun _ => 5⟩ ⟨fun _ _ => 7⟩ 1).1.val 3 = 5 ∧
    (unit_square_element.fill_in_generic_residual_contribution_hele_shaw
      ⟨fun _ => 5⟩ ⟨fun _ _ => 7⟩ 1).2.entry 1 (-1) = 7 ∧
    (unit_square_element.fill_in_generic_residual_contribution_hele_shaw
      ⟨fun _ => 5⟩ ⟨fun _ _ => 7⟩ 1).2.entry 3 1 = 7 :=
  ⟨by decide,
   (constrained_dofs_are_skipped unit_square_element ⟨fun _ => 5⟩ ⟨fun _ _ => 7⟩ 1).2.2.2.1
     (-1) (by decide),
   (constrained_dofs_are_skipped unit_square_element ⟨fun _ => 5⟩ ⟨fun _ _ => 7⟩ 1).2.1
     3 (by decide),
   (constrained_dofs_are_skipped unit_square_element ⟨fun _ => 5⟩ ⟨fun _ _ => 7⟩ 1).2.2.2.2
     1 (-1) (Or.inr (by decide)),
   (constrained_dofs_are_skipped unit_square_element ⟨fun _ => 5⟩ ⟨fun _ _ => 7⟩ 1).2.2.1
     3 1 (Or.inl (by decide))⟩

theorem sum_update_mul (n j : ℕ) (hj : j < n) (p d : ℕ → ℚ) (v : ℚ) :
    ∑ l in Finset.range n, Function.update p j v l * d l =
      ∑ l in Finset.range n, p l * d l + (v - p j) * d j := by
  have h : ∀ l ∈ Finset.range n,
      Function.update p j v l * d l = p l * d l + (if l = j then (v - p j) * d j else 0) := by
    intro l _
    by_cases hl : l = j
    · subst hl; simp; ring
    · simp [Function.update, hl]
  rw [Finset.sum_congr rfl h, Finset.sum_add_distrib, Finset.sum_ite_eq']
  simp [hj]

theorem sum_ite_single (n j : ℕ) (hj : j < n) (eqn : ℕ → ℤ) (hfree : 0 ≤ eqn j)
    (hinj : ∀ l < n, 0 ≤ eqn l → eqn l = eqn j → l = j) (t : ℕ → ℚ) :
    ∑ l2 in Finset.range n, (if 0 ≤ eqn l2 ∧ eqn l2 = eqn j then t l2 else 0) = t j := by
  rw [Finset.sum_eq_single j]
  · simp [hfree]
  · intro l hl hne
    rw [if_neg]
    exact fun h => hne (hinj l (Finset.mem_range.mp hl) h.1 h.2)
  · intro h
    exact absurd (Finset.mem_range.mpr hj) h

theorem set_raw_nodal_value_knot_wall_data (el : HeleShawEquations) (p : ℕ → ℚ) (ipt : ℕ) :
    (el.set_raw_nodal_value p).knot_wall_data ipt = el.knot_wall_data ipt := rfl

theorem set_raw_nodal_value_nnode (el : HeleShawEquations) (p : ℕ → ℚ) :
    (el.set_raw_nodal_value p).nnode = el.nnode := rfl

theorem set_raw_nodal_value_nweight (el : HeleShawEquations) (p : ℕ → ℚ) :
    (el.set_raw_nodal_value p).nweight = el.nweight := rfl

theorem set_raw_nodal_value_nodal_local_eqn (el : HeleShawEquations) (p : ℕ → ℚ) :
    (el.set_raw_nodal_value p).nodal_local_eqn = el.nodal_local_eqn := rfl

theorem residual_summand_difference (el : HeleShawEquations) (p : ℕ → ℚ) (j : ℕ)
    (hj : j < el.nnode) (eps : ℚ) (ipt l : ℕ) :
    (el.set_raw_nodal_value (Function.update p j (p j + eps))).residual_summand ipt l -
      (el.set_raw_nodal_value (Function.update p j (p j - eps))).residual_summand ipt l =
      2 * eps * (el.set_raw_nodal_value p).jacobian_summand ipt l j := by
  simp only [residual_summand, jacobian_summand, set_raw_nodal_value_knot_wall_data]
  simp only [knot_interpolated_dpdx, set_raw_nodal_value, Fin.sum_univ_two]
  rw [sum_update_mul _ _ hj, sum_update_mul _ _ hj, sum_update_mul _ _ hj,
    sum_update_mul _ _ hj]
  ring

/-- C4: the analytic Jacobian is the derivative of the residual with respect to the free nodal
values.  The wall data do not depend on the nodal pressures (`set_raw_nodal_value` changes
nothing but the pressures), distinct free nodes have distinct local equation numbers, and
residual and Jacobian start at zero.  Then for all nodal pressures `p`, every free node `j`,
every step `eps` other than zero and every row `e`, the central difference
`(R(p + eps e_j) - R(p - eps e_j)) / (2 eps)` of the residual of
`fill_in_contribution_to_residuals` equals entry `(e, nodal_local_eqn(j))` of the Jacobian of
`fill_in_contribution_to_jacobian` at `p`. -/
theorem jacobian_is_central_difference_of_residual (el : HeleShawEquations) (p : ℕ → ℚ)
    (j : ℕ) (eps : ℚ) (e : ℤ)
    (hj : j < el.nnode) (hfree : 0 ≤ el.nodal_local_eqn j)
    (hinj : ∀ l < el.nnode, ∀ l2 < el.nnode, 0 ≤ el.nodal_local_eqn l →
      0 ≤ el.nodal_local_eqn l2 → el.nodal_local_eqn l = el.nodal_local_eqn l2 → l = l2)
    (heps : eps ≠ 0) :
    (((el.set_raw_nodal_value (Function.update p j (p j + eps))).fill_in_contribution_to_residuals
          Vec.zero).val e -
      ((el.set_raw_nodal_value (Function.update p j (p j - eps))).fill_in_contribution_to_residuals
          Vec.zero).val e) / (2 * eps) =
    ((el.set_raw_nodal_value p).fill_in_contribution_to_jacobian
      Vec.zero ⟨fun _ _ => 0⟩).2.entry e (el.nodal_local_eqn j) := by
  have h2 : (2 * eps) ≠ 0 := mul_ne_zero two_ne_zero heps
  rw [div_eq_iff h2]
  unfold fill_in_contribution_to_residuals fill_in_contribution_to_jacobian
  rw [generic_residual_entry, generic_residual_entry, generic_jacobian_entry]
  simp only [Vec.zero, zero_add, add_sub_add_left_eq_sub, set_raw_nodal_value_nnode,
    set_raw_nodal_value_nweight, set_raw_nodal_value_nodal_local_eqn]
  rw [← Finset.sum_sub_distrib, Finset.sum_mul]
  refine Finset.sum_congr rfl (fun l _ => ?_)
  by_cases hl : 0 ≤ el.nodal_local_eqn l ∧ el.nodal_local_eqn l = e
  · rw [if_pos hl, if_pos hl, if_pos ⟨one_ne_zero, hl⟩]
    rw [sum_ite_single el.nnode j hj el.nodal_local_eqn hfree
      (fun l2 hl2 h0 heq => hinj l2 hl2 j hj h0 hfree heq)]
    rw [← Finset.sum_sub_distrib, Finset.sum_mul]
    refine Finset.sum_congr rfl (fun ipt _ => ?_)
    rw [residual_summand_difference el p j hj eps ipt l]
    ring
  · rw [if_neg hl, if_neg hl, if_neg (fun h => hl h.2)]
    ring

/-- Witness for C4 on the unit-square element: node 2 (equation 1), step `1/10`, row 0. -/
theorem jacobian_is_central_difference_of_residual_witness :
    (((unit_square_element.set_raw_nodal_value
          (Function.update (fun l => (l : ℚ)) 2 ((2 : ℚ) + 1 / 10))).fill_in_contribution_to_residuals
          Vec.zero).val 0 -
      ((unit_square_element.set_raw_nodal_value
          (Function.update (fun l => (l : ℚ)) 2 ((2 : ℚ) - 1 / 10))).fill_in_contribution_to_residuals
          Vec.zero).val 0) / (2 * (1 / 10)) =
    ((unit_square_element.set_raw_nodal_value (fun l => (l : ℚ))).fill_in_contribution_to_jacobian
      Vec.zero ⟨fun _ _ => 0⟩).2.entry 0 (unit_square_element.nodal_local_eqn 2) := by
  have h := jacobian_is_central_difference_of_residual unit_square_element
    (fun l => (l : ℚ)) 2 (1 / 10) 0 (by decide) (by decide) (by decide) (by norm_num)
  simpa using h

/-! ## The mesh-sensitivity assembler -/

theorem interpolate_dX_x (el : HeleShawEquations) (sh : ShapeTestDataDX) (j : Fin 2) :
    (el.interpolate_dX sh).1.val j =
      ∑ l in Finset.range el.nnode, el.raw_nodal_position l j * sh.psi l := by
  unfold interpolate_dX
  refine (foldl_range_obs_add _ (fun (acc : Vec (Fin 2) × Vec (Fin 2)) => acc.1.val j)
    (fun l => el.raw_nodal_position l j * sh.psi l) ?_ _ _).trans ?_
  swap
  · simp [Vec.zero]
  · intro acc l
    fin_cases j <;> simp [finRange_two_eq, vec_add_val]

theorem interpolate_dX_dpdx (el : HeleShawEquations) (sh : ShapeTestDataDX) (k : Fin 2) :
    (el.interpolate_dX sh).2.val k =
      ∑ l in Finset.range el.nnode, el.raw_nodal_value l * sh.dpsidx l k := by
  unfold interpolate_dX
  refine (foldl_range_obs_add _ (fun (acc : Vec (Fin 2) × Vec (Fin 2)) => acc.2.val k)
    (fun l => el.raw_nodal_value l * sh.dpsidx l k) ?_ _ _).trans ?_
  swap
  · simp [Vec.zero]
  · intro acc l
    fin_cases k <;> simp [finRange_two_eq, vec_add_val]

theorem interpolate_dX_x_eq (el : HeleShawEquations) (ipt : ℕ) :
    (el.interpolate_dX (el.dshape_and_dtest_eulerian_at_knot_hele_shaw_dX ipt)).1.val =
      el.knot_interpolated_x_dX ipt := by
  funext j
  exact interpolate_dX_x el _ j

theorem interpolate_dX_dpdx_eq (el : HeleShawEquations) (ipt : ℕ) :
    (el.interpolate_dX (el.dshape_and_dtest_eulerian_at_knot_hele_shaw_dX ipt)).2.val =
      el.knot_interpolated_dpdx_dX ipt := by
  funext k
  exact interpolate_dX_dpdx el _ k

theorem foldl_range_assign {σ : Type} (F : σ → ℕ → σ) (obs : σ → ℚ) (q : ℕ) (v : ℚ)
    (hhit : ∀ s, obs (F s q) = v) (hmiss : ∀ s x, x ≠ q → obs (F s x) = obs s)
    (n : ℕ) (s : σ) :
    obs ((List.range n).foldl F s) = if q < n then v else obs s := by
  induction n with
  | zero => simp
  | succ n ih =>
    rw [List.range_succ, List.foldl_append, List.foldl_cons, List.foldl_nil]
    by_cases hq : n = q
    · subst hq
      simp [hhit]
    · rw [hmiss _ _ hq, ih]
      have : (q < n + 1) ↔ (q < n) := by omega
      simp [this]

theorem fill_d_dpdx_dX_entry (el : HeleShawEquations) (sh : ShapeTestDataDX)
    (T : RankThreeTensor (Fin 2) ℕ (Fin 2)) (p : Fin 2) (q : ℕ) (i : Fin 2) :
    (el.fill_d_dpdx_dX sh T).entry p q i =
      if q < el.nnode then
        ∑ j in Finset.range el.nnode, el.raw_nodal_value j * sh.d_dpsidx_dX p q j i
      else T.entry p q i := by
  unfold fill_d_dpdx_dX
  have haux : ∀ (p : Fin 2) (q : ℕ) (i : Fin 2),
      (List.range el.nnode).foldl
        (fun aux j => aux + el.raw_nodal_value j * sh.d_dpsidx_dX p q j i) 0 =
      ∑ j in Finset.range el.nnode, el.raw_nodal_value j * sh.d_dpsidx_dX p q j i := by
    intro p q i
    have h := foldl_range_obs_add
      (fun (aux : ℚ) j => aux + el.raw_nodal_value j * sh.d_dpsidx_dX p q j i) id
      (fun j => el.raw_nodal_value j * sh.d_dpsidx_dX p q j i) (fun _ _ => rfl) el.nnode 0
    simpa using h
  simp only [haux]
  refine foldl_range_assign _ (fun (T : RankThreeTensor (Fin 2) ℕ (Fin 2)) => T.entry p q i)
    q _ ?_ ?_ _ _
  · intro T
    fin_cases p <;> fin_cases i <;>
      simp [finRange_two_eq, rank_three_set_entry]
  · intro T x hx
    simp [finRange_two_eq, rank_three_set_entry, hx]

theorem sensitivity_node_entry (el : HeleShawEquations) (sh : ShapeTestDataDX) (w : ℚ)
    (wall : UpperWallFluxData) (dpdx : Vec (Fin 2))
    (d_dpdx_dX : RankThreeTensor (Fin 2) ℕ (Fin 2))
    (T : RankThreeTensor ℤ ℕ ℕ) (l : ℕ) (e : ℤ) (p' q' : ℕ) :
    (el.sensitivity_node sh w wall dpdx d_dpdx_dX T l).entry e p' q' = T.entry e p' q' +
      ∑ p : Fin 2, ∑ q in Finset.range el.nnode,
        (if (0 ≤ el.nodal_local_eqn l ∧ el.nodal_local_eqn l = e) ∧ p.val = p' ∧ q = q' then
          (wall.dhdt * sh.test l * sh.dJ_dX p q +
              wall.d_dhdt_dx p * sh.test l * sh.psi q * sh.J) +
          (∑ i : Fin 2,
            (dpdx.val i * (sh.dtestdx l i * sh.dJ_dX p q + sh.d_dtestdx_dX p q l i * sh.J) +
              d_dpdx_dX.entry p q i * sh.dtestdx l i * sh.J)) * w *
            (wall.h * wall.h * wall.h) +
          (∑ i : Fin 2, dpdx.val i * sh.dtestdx l i) * w * sh.J * 3 * (wall.h * wall.h) *
            wall.dhdx p * sh.psi q
        else 0) := by
  unfold sensitivity_node
  by_cases h0 : 0 ≤ el.nodal_local_eqn l
  · simp only [ge_iff_le, h0, if_true, true_and]
    refine foldl_fin_two_obs_add _ (fun (T : RankThreeTensor ℤ ℕ ℕ) => T.entry e p' q') _
      (fun T p => ?_) _
    refine foldl_range_obs_add _ (fun (T : RankThreeTensor ℤ ℕ ℕ) => T.entry e p' q') _
      (fun T q => ?_) _ _
    by_cases hc : el.nodal_local_eqn l = e ∧ p.val = p' ∧ q = q'
    · obtain ⟨rfl, rfl, rfl⟩ := hc
      simp [finRange_two_eq, rank_three_add_entry, Fin.sum_univ_two]
      ring
    · simp only [rank_three_add_entry, hc, if_false, add_zero]
  · simp [h0]

theorem sensitivity_point_entry (el : HeleShawEquations)
    (st : RankThreeTensor (Fin 2) ℕ (Fin 2) × RankThreeTensor ℤ ℕ ℕ) (ipt : ℕ)
    (e : ℤ) (p' q' : ℕ) :
    (el.sensitivity_point st ipt).2.entry e p' q' = st.2.entry e p' q' +
      ∑ l in Finset.range el.nnode, ∑ p : Fin 2, ∑ q in Finset.range el.nnode,
        (if (0 ≤ el.nodal_local_eqn l ∧ el.nodal_local_eqn l = e) ∧ p.val = p' ∧ q = q' then
          el.sensitivity_summand ipt l p q else 0) := by
  unfold sensitivity_point
  simp only [interpolate_dX_x_eq]
  refine (foldl_range_obs_add _ (fun (T : RankThreeTensor ℤ ℕ ℕ) => T.entry e p' q') _
    (fun T l => sensitivity_node_entry el _ _ _ _ _ T l e p' q') _ _).trans ?_
  congr 1
  refine Finset.sum_congr rfl (fun l _ => ?_)
  refine Finset.sum_congr rfl (fun p _ => ?_)
  refine Finset.sum_congr rfl (fun q hq => ?_)
  have hq' : q < el.nnode := Finset.mem_range.mp hq
  simp only [interpolate_dX_dpdx_eq, fill_d_dpdx_dX_entry, hq', if_true]
  rfl

/-- Entry `(e, p', q')` of the tensor after `get_dresidual_dnodal_coordinates`. -/
theorem dresidual_entry (el : HeleShawEquations) (T : RankThreeTensor ℤ ℕ ℕ)
    (e : ℤ) (p' q' : ℕ) :
    (el.get_dresidual_dnodal_coordinates T).entry e p' q' = T.entry e p' q' +
      ∑ ipt in Finset.range el.nweight,
        ∑ l in Finset.range el.nnode, ∑ p : Fin 2, ∑ q in Finset.range el.nnode,
          (if (0 ≤ el.nodal_local_eqn l ∧ el.nodal_local_eqn l = e) ∧ p.val = p' ∧ q = q' then
            el.sensitivity_summand ipt l p q else 0) := by
  unfold get_dresidual_dnodal_coordinates
  exact foldl_range_obs_add _
    (fun (st : RankThreeTensor (Fin 2) ℕ (Fin 2) × RankThreeTensor ℤ ℕ ℕ) =>
      st.2.entry e p' q') _
    (fun st ipt => sensitivity_point_entry el st ipt e p' q') _ _

/-- Frame of `get_dresidual_dnodal_coordinates`: an entry `(e, p', q')` with `q'` not a node of
the element, or `p'` not a direction, or `e` not the equation number of a free node, keeps
its value. -/
theorem dresidual_frame (el : HeleShawEquations) (T : RankThreeTensor ℤ ℕ ℕ)
    (e : ℤ) (p' q' : ℕ)
    (h : el.nnode ≤ q' ∨ 2 ≤ p' ∨
      (∀ l < el.nnode, 0 ≤ el.nodal_local_eqn l → el.nodal_local_eqn l ≠ e)) :
    (el.get_dresidual_dnodal_coordinates T).entry e p' q' = T.entry e p' q' := by
  rw [dresidual_entry]
  have hz : ∀ ipt ∈ Finset.range el.nweight,
      (∑ l in Finset.range el.nnode, ∑ p : Fin 2, ∑ q in Finset.range el.nnode,
        (if (0 ≤ el.nodal_local_eqn l ∧ el.nodal_local_eqn l = e) ∧ p.val = p' ∧ q = q' then
          el.sensitivity_summand ipt l p q else 0)) = 0 := by
    intro ipt _
    refine Finset.sum_eq_zero (fun l hl => ?_)
    refine Finset.sum_eq_zero (fun p _ => ?_)
    refine Finset.sum_eq_zero (fun q hq => ?_)
    rw [if_neg]
    rintro ⟨⟨h0, he⟩, hp, hqq⟩
    have hl' := Finset.mem_range.mp hl
    have hq' := Finset.mem_range.mp hq
    have hp2 := p.isLt
    rcases h with h | h | h
    · omega
    · omega
    · exact h l hl' h0 he
  rw [Finset.sum_eq_zero hz, add_zero]

/-- C6: mesh-sensitivity entries vanish for nodes that are not in the element.
`get_dresidual_dnodal_coordinates` leaves every entry `(e, p, q)` as it was unless `e` is the
local equation number of a free node, `p < 2` and `q < nnode`; hence, starting from the zero
tensor, every entry with `q >= nnode` is zero after the call. -/
theorem dresidual_writes_only_element_nodes (el : HeleShawEquations) :
    (∀ (T : RankThreeTensor ℤ ℕ ℕ) (e : ℤ) (p q : ℕ),
      (el.nnode ≤ q ∨ 2 ≤ p ∨
        (∀ l < el.nnode, 0 ≤ el.nodal_local_eqn l → el.nodal_local_eqn l ≠ e)) →
      (el.get_dresidual_dnodal_coordinates T).entry e p q = T.entry e p q) ∧
    (∀ (e : ℤ) (p q : ℕ), el.nnode ≤ q →
      (el.get_dresidual_dnodal_coordinates ⟨fun _ _ _ => 0⟩).entry e p q = 0) :=
  ⟨fun T e p q h => dresidual_frame el T e p q h,
   fun e p q h => dresidual_frame el ⟨fun _ _ _ => 0⟩ e p q (Or.inl h)⟩

/-- Witness for C6 on the unit-square element (4 nodes; free equations 0, 1, 2). -/
theorem dresidual_writes_only_element_nodes_witness :
    (unit_square_element.get_dresidual_dnodal_coordinates ⟨fun _ _ _ => 0⟩).entry 0 0 4 = 0 ∧
    (unit_square_element.get_dresidual_dnodal_coordinates ⟨fun _ _ _ => 9⟩).entry 1 2 3 = 9 ∧
    (unit_square_element.get_dresidual_dnodal_coordinates ⟨fun _ _ _ => 9⟩).entry (-1) 0 1 = 9 :=
  ⟨(dresidual_writes_only_element_nodes unit_square_element).2 0 0 4 (by decide),
   (dresidual_writes_only_element_nodes unit_square_element).1 ⟨fun _ _ _ => 9⟩ 1 2 3
     (Or.inr (Or.inl (by decide))),
   (dresidual_writes_only_element_nodes unit_square_element).1 ⟨fun _ _ _ => 9⟩ (-1) 0 1
     (Or.inr (Or.inr (by decide)))⟩

/-- C5 (the code departs from the claim): on the unit-square element, whose quadrature
weights are `1/2` and whose wall velocity is `dhdt = 2`, the entry
`dresidual_dnodal_coordinates(0, 0, 1)` produced by `get_dresidual_dnodal_coordinates` from
the zero tensor is `-1897/512`, whereas the product-rule derivative of the residual summand
with every term weighted by `w` gives `-2025/512`: the first `+=` of the source adds
`dhdt * test(l) * dJ_dX(p, q) + d_dhdt_dx[p] * test(l) * psi(q) * J` without the factor `w`. -/
theorem dresidual_wall_velocity_term_misses_weight :
    (unit_square_element.get_dresidual_dnodal_coordinates ⟨fun _ _ _ => 0⟩).entry 0 0 1
      = -1897 / 512 ∧
    (∑ l in Finset.range unit_square_element.nnode,
      (if 0 ≤ unit_square_element.nodal_local_eqn l ∧ unit_square_element.nodal_local_eqn l = 0
       then ∑ ipt in Finset.range unit_square_element.nweight,
          unit_square_element.product_rule_summand ipt l 0 1
       else 0)) = -2025 / 512 := by
  constructor
  · rw [dresidual_entry]
    simp [unit_square_element, Finset.sum_range_succ, Fin.sum_univ_two, sensitivity_summand,
      knot_wall_flux_data, knot_interpolated_x_dX, knot_interpolated_dpdx_dX, knot_d_dpdx_dX,
      bilinear_psi, bilinear_dpsidx, unit_square_corner, two_point_knot]
    norm_num
  · simp [unit_square_element, Finset.sum_range_succ, Fin.sum_univ_two, product_rule_summand,
      knot_wall_flux_data, knot_interpolated_x_dX, knot_interpolated_dpdx_dX, knot_d_dpdx_dX,
      bilinear_psi, bilinear_dpsidx, unit_square_corner, two_point_knot]
    norm_num

/-- The summand of the code differs from the product-rule summand of the specification by
the wall-velocity terms, which the code does not multiply by the weight. -/
theorem sensitivity_summand_eq (el : HeleShawEquations) (ipt l : ℕ) (p : Fin 2) (q : ℕ) :
    el.sensitivity_summand ipt l p q = el.product_rule_summand ipt l p q +
      (1 - el.weight ipt) *
        ((el.knot_wall_flux_data ipt).dhdt *
            (el.dshape_and_dtest_eulerian_at_knot_hele_shaw_dX ipt).test l *
            (el.dshape_and_dtest_eulerian_at_knot_hele_shaw_dX ipt).dJ_dX p q +
          (el.knot_wall_flux_data ipt).d_dhdt_dx p *
            (el.dshape_and_dtest_eulerian_at_knot_hele_shaw_dX ipt).psi q *
            (el.dshape_and_dtest_eulerian_at_knot_hele_shaw_dX ipt).test l *
            (el.dshape_and_dtest_eulerian_at_knot_hele_shaw_dX ipt).J) := by
  simp only [sensitivity_summand, product_rule_summand, Finset.mul_sum, Finset.sum_mul,
    Fin.sum_univ_two]
  ring

/-! ## Diagnostics: pressure gradient, velocity, error -/

theorem get_pressure_gradient_val (el : HeleShawEquations) (s : Fin 2 → ℚ) (gradient : Vec ℕ)
    (j : Fin 2) :
    (el.get_pressure_gradient s gradient).val j.val =
      ∑ l in Finset.range el.nnode, el.nodal_value l * (el.dshape_eulerian s).dpsidx l j := by
  unfold get_pressure_gradient
  refine (foldl_range_obs_add _ (fun (g : Vec ℕ) => g.val j.val)
    (fun l => el.nodal_value l * (el.dshape_eulerian s).dpsidx l j) ?_ _ _).trans ?_
  swap
  · fin_cases j <;> simp [finRange_two_eq, vec_set_val]
  · intro g l
    fin_cases j <;> simp [finRange_two_eq, vec_add_val]

theorem get_velocity_interpolated_x (el : HeleShawEquations) (psi : ℕ → ℚ) :
    ((List.range el.nnode).foldl
      (fun x l => (List.finRange 2).foldl
        (fun (x : Vec (Fin 2)) j => x.add j (el.raw_nodal_position l j * psi l)) x)
      Vec.zero).val =
    fun j => ∑ l in Finset.range el.nnode, el.raw_nodal_position l j * psi l := by
  funext j
  refine (foldl_range_obs_add _ (fun (x : Vec (Fin 2)) => x.val j)
    (fun l => el.raw_nodal_position l j * psi l) ?_ _ _).trans ?_
  swap
  · simp [Vec.zero]
  · intro x l
    fin_cases j <;> simp [finRange_two_eq, vec_add_val]

/-- C7: for every local coordinate `s` and both directions `j`, `get_velocity` stores
`velocity[j] = -(h * h) * sum_l p_l * dpsidx(l, j)`, where `h` is the gap width returned by
`get_upper_wall_data` at the position `sum_l X_l * psi_l(s)` (same `s` and same shape
functions as the gradient); the stored value does not depend on what `velocity` held. -/
theorem get_velocity_is_minus_h_squared_grad_p (el : HeleShawEquations) (s : Fin 2 → ℚ)
    (velocity : Vec ℕ) (j : Fin 2) :
    (el.get_velocity s velocity).val j.val =
      -((el.get_upper_wall_data 0
            (fun i => ∑ l in Finset.range el.nnode,
              el.raw_nodal_position l i * (el.dshape_eulerian s).psi l) (0, 0)).1 *
          (el.get_upper_wall_data 0
            (fun i => ∑ l in Finset.range el.nnode,
              el.raw_nodal_position l i * (el.dshape_eulerian s).psi l) (0, 0)).1) *
        ∑ l in Finset.range el.nnode, el.nodal_value l * (el.dshape_eulerian s).dpsidx l j := by
  unfold get_velocity
  simp only [get_velocity_interpolated_x]
  have h0 := get_pressure_gradient_val el s Vec.zero 0
  have h1 := get_pressure_gradient_val el s Vec.zero 1
  simp only [Fin.val_zero, Fin.val_one] at h0 h1
  fin_cases j <;> simp [finRange_two_eq, vec_set_val, h0, h1]

/-- The local coordinate after the loop `s[i] = knot(ipt, i)`. -/
theorem knot_assignment (el : HeleShawEquations) (ipt : ℕ) (s : Vec (Fin 2)) :
    ((List.finRange 2).foldl (fun (s : Vec (Fin 2)) i => s.set i (el.knot ipt i)) s).val =
      el.knot ipt := by
  funext i
  fin_cases i <;> simp [finRange_two_eq, vec_set_val]

theorem compute_error_point_error (el : HeleShawEquations)
    (exact_soln_pt : (Fin 2 → ℚ) → ℕ → ℚ) (st : Vec (Fin 2) × ℚ × ℚ) (ipt : ℕ) :
    (el.compute_error_point exact_soln_pt st ipt).2.1 =
      st.2.1 + el.error_summand exact_soln_pt (el.knot ipt) (el.weight ipt) := by
  unfold compute_error_point
  simp only [knot_assignment]
  refine (foldl_range_obs_add _ (fun (en : ℚ × ℚ) => en.1)
    (fun i => (exact_soln_pt (el.interpolated_x (el.knot ipt)) i -
        ((el.get_velocity (el.knot ipt) Vec.zero).set 2
          (el.interpolated_p_hele_shaw (el.knot ipt))).val i) *
      (exact_soln_pt (el.interpolated_x (el.knot ipt)) i -
        ((el.get_velocity (el.knot ipt) Vec.zero).set 2
          (el.interpolated_p_hele_shaw (el.knot ipt))).val i) *
      (el.weight ipt * el.J_eulerian (el.knot ipt))) (fun _ _ => rfl) _ _).trans ?_
  simp [error_summand, fe_values, Finset.sum_range_succ, vec_set_val]
  ring

theorem compute_error_point_norm (el : HeleShawEquations)
    (exact_soln_pt : (Fin 2 → ℚ) → ℕ → ℚ) (st : Vec (Fin 2) × ℚ × ℚ) (ipt : ℕ) :
    (el.compute_error_point exact_soln_pt st ipt).2.2 =
      st.2.2 + el.norm_summand exact_soln_pt (el.knot ipt) (el.weight ipt) := by
  unfold compute_error_point
  simp only [knot_assignment]
  refine (foldl_range_obs_add _ (fun (en : ℚ × ℚ) => en.2)
    (fun i => exact_soln_pt (el.interpolated_x (el.knot ipt)) i *
      exact_soln_pt (el.interpolated_x (el.knot ipt)) i *
      (el.weight ipt * el.J_eulerian (el.knot ipt))) (fun _ _ => rfl) _ _).trans ?_
  simp [norm_summand, Finset.sum_range_succ]
  ring

/-- The pair returned by the steady `compute_error` as sums over the integration points. -/
theorem compute_error_eq_sums (el : HeleShawEquations)
    (exact_soln_pt : (Fin 2 → ℚ) → ℕ → ℚ) (error norm : ℚ) :
    el.compute_error exact_soln_pt error norm =
      (∑ ipt in Finset.range el.nweight,
          el.error_summand exact_soln_pt (el.knot ipt) (el.weight ipt),
       ∑ ipt in Finset.range el.nweight,
          el.norm_summand exact_soln_pt (el.knot ipt) (el.weight ipt)) := by
  unfold compute_error
  refine Prod.ext ?_ ?_
  · have h := foldl_range_obs_add (el.compute_error_point exact_soln_pt)
      (fun (st : Vec (Fin 2) × ℚ × ℚ) => st.2.1) _
      (fun st ipt => compute_error_point_error el exact_soln_pt st ipt) el.nweight
      (Vec.zero, 0, 0)
    simpa using h
  · have h := foldl_range_obs_add (el.compute_error_point exact_soln_pt)
      (fun (st : Vec (Fin 2) × ℚ × ℚ) => st.2.2) _
      (fun st ipt => compute_error_point_norm el exact_soln_pt st ipt) el.nweight
      (Vec.zero, 0, 0)
    simpa using h

/-- C8: the steady `compute_error` returns, with no square root taken,
`error = sum_ipt w * J * sum_{i<3} (exact_i - fe_i)^2` and
`norm = sum_ipt w * J * sum_{i<3} exact_i^2`, where `(fe_0, fe_1)` is the velocity of
`get_velocity` at the knot, `fe_2` the interpolated pressure there, and `exact` the exact
solution at the interpolated position of the knot. -/
theorem compute_error_is_weighted_sum_of_squares (el : HeleShawEquations)
    (exact_soln_pt : (Fin 2 → ℚ) → ℕ → ℚ) (error norm : ℚ) :
    el.compute_error exact_soln_pt error norm =
      (∑ ipt in Finset.range el.nweight,
        el.weight ipt * el.J_eulerian (el.knot ipt) *
          ((exact_soln_pt (el.interpolated_x (el.knot ipt)) 0 -
              (el.get_velocity (el.knot ipt) Vec.zero).val 0) ^ 2 +
           (exact_soln_pt (el.interpolated_x (el.knot ipt)) 1 -
              (el.get_velocity (el.knot ipt) Vec.zero).val 1) ^ 2 +
           (exact_soln_pt (el.interpolated_x (el.knot ipt)) 2 -
              el.interpolated_p_hele_shaw (el.knot ipt)) ^ 2),
       ∑ ipt in Finset.range el.nweight,
        el.weight ipt * el.J_eulerian (el.knot ipt) *
          (exact_soln_pt (el.interpolated_x (el.knot ipt)) 0 ^ 2 +
           exact_soln_pt (el.interpolated_x (el.knot ipt)) 1 ^ 2 +
           exact_soln_pt (el.interpolated_x (el.knot ipt)) 2 ^ 2)) := by
  rw [compute_error_eq_sums]
  simp [error_summand, norm_summand, fe_values, Finset.sum_range_succ]

theorem sum_range_getD {α : Type} (f : α → ℚ) (d : α) (L : List α) :
    ∑ i in Finset.range L.length, f (L.getD i d) = (L.map f).sum := by
  induction L with
  | nil => simp
  | cons a L ih =>
    rw [List.length_cons, Finset.sum_range_succ', List.map_cons, List.sum_cons]
    simp only [List.getD_cons_succ, List.getD_cons_zero]
    rw [ih, add_comm]

/-- With the quadrature rule given by a list, `compute_error` is the pair of the sums of the
summands over the list. -/
theorem compute_error_set_integral_pt (el : HeleShawEquations)
    (exact_soln_pt : (Fin 2 → ℚ) → ℕ → ℚ) (rule : List ((Fin 2 → ℚ) × ℚ)) (error norm : ℚ) :
    (el.set_integral_pt rule).compute_error exact_soln_pt error norm =
      ((rule.map (fun kw => el.error_summand exact_soln_pt kw.1 kw.2)).sum,
       (rule.map (fun kw => el.norm_summand exact_soln_pt kw.1 kw.2)).sum) := by
  rw [compute_error_eq_sums]
  refine Prod.ext ?_ ?_
  · exact sum_range_getD (fun kw => el.error_summand exact_soln_pt kw.1 kw.2) _ rule
  · exact sum_range_getD (fun kw => el.norm_summand exact_soln_pt kw.1 kw.2) _ rule

/-- C9: error/norm accumulation is additive over the quadrature points.  Whenever the
(knot, weight) list `L` of the rule is split into two sub-lists `A` and `B` (`L` is a
rearrangement of `A ++ B`), the pair computed by `compute_error` over `L` is the
component-wise sum of the pairs computed over `A` and over `B`, whatever the output variables
held before each call. -/
theorem compute_error_additive_over_quadrature_split (el : HeleShawEquations)
    (exact_soln_pt : (Fin 2 → ℚ) → ℕ → ℚ) (L A B : List ((Fin 2 → ℚ) × ℚ))
    (hsplit : List.Perm L (A ++ B)) (e n eA nA eB nB : ℚ) :
    (el.set_integral_pt L).compute_error exact_soln_pt e n =
      (((el.set_integral_pt A).compute_error exact_soln_pt eA nA).1 +
        ((el.set_integral_pt B).compute_error exact_soln_pt eB nB).1,
       ((el.set_integral_pt A).compute_error exact_soln_pt eA nA).2 +
        ((el.set_integral_pt B).compute_error exact_soln_pt eB nB).2) := by
  simp only [compute_error_set_integral_pt]
  rw [(hsplit.map _).sum_eq, (hsplit.map _).sum_eq, List.map_append, List.map_append,
    List.sum_append, List.sum_append]

/-- Witness for C9: the two-point rule of the unit-square element, listed in the opposite
order, split into its two points. -/
theorem compute_error_additive_over_quadrature_split_witness :
    (unit_square_element.set_integral_pt
        [(two_point_knot 1, 1 / 2), (two_point_knot 0, 1 / 2)]).compute_error
        (fun x i => if i = 2 then x 0 else 0) 5 7 =
      (((unit_square_element.set_integral_pt [(two_point_knot 0, 1 / 2)]).compute_error
          (fun x i => if i = 2 then x 0 else 0) 1 2).1 +
        ((unit_square_element.set_integral_pt [(two_point_knot 1, 1 / 2)]).compute_error
          (fun x i => if i = 2 then x 0 else 0) 3 4).1,
       ((unit_square_element.set_integral_pt [(two_point_knot 0, 1 / 2)]).compute_error
          (fun x i => if i = 2 then x 0 else 0) 1 2).2 +
        ((unit_square_element.set_integral_pt [(two_point_knot 1, 1 / 2)]).compute_error
          (fun x i => if i = 2 then x 0 else 0) 3 4).2) :=
  compute_error_additive_over_quadrature_split unit_square_element
    (fun x i => if i = 2 then x 0 else 0)
    [(two_point_knot 1, 1 / 2), (two_point_knot 0, 1 / 2)]
    [(two_point_knot 0, 1 / 2)] [(two_point_knot 1, 1 / 2)]
    (List.Perm.swap _ _ _) 5 7 1 2 3 4

/-- C10: the time-dependent `compute_error` overload fails for every input: it raises the
error with message "There is no time-dependent compute_error() for HeleShaw elements" and
returns no value for `error` and `norm`. -/
theorem compute_error_time_dependent_always_throws (el : HeleShawEquations)
    (exact_soln_pt : ℚ → (Fin 2 → ℚ) → ℕ → ℚ) (time error norm : ℚ) :
    el.compute_error_time_dependent exact_soln_pt time error norm =
      Except.error
        { message := "There is no time-dependent compute_error() for HeleShaw elements",
          function_name := "HeleShawEquations::compute_error()" } ∧
    ∀ r : ℚ × ℚ, el.compute_error_time_dependent exact_soln_pt time error norm ≠ Except.ok r := by
  refine ⟨rfl, fun r h => ?_⟩
  simp [compute_error_time_dependent] at h

/-! ## Degenerate geometry, constant coefficient, symmetry, modes -/

theorem sum_ite_nested (n : ℕ) (P Q : ℕ → Prop) [DecidablePred P] [DecidablePred Q]
    (t : ℕ → ℕ → ℚ) :
    ∑ l in Finset.range n, (if P l then ∑ l2 in Finset.range n,
        (if Q l2 then t l l2 else 0) else 0) =
      ∑ l in Finset.range n, ∑ l2 in Finset.range n, (if P l ∧ Q l2 then t l l2 else 0) := by
  refine Finset.sum_congr rfl (fun l _ => ?_)
  by_cases hl : P l
  · rw [if_pos hl]
    refine Finset.sum_congr rfl (fun l2 _ => ?_)
    by_cases h2 : Q l2
    · rw [if_pos h2, if_pos ⟨hl, h2⟩]
    · rw [if_neg h2, if_neg (fun h => h2 h.2)]
  · rw [if_neg hl]
    symm
    exact Finset.sum_eq_zero (fun l2 _ => if_neg (fun h => hl h.1))

/-- Entry `(a, b)` of the Jacobian after `fill_in_contribution_to_jacobian`, as a double sum
over the pairs of nodes. -/
theorem jacobian_entry_double_sum (el : HeleShawEquations) (residuals : Vec ℤ)
    (jacobian : DenseMatrix) (a b : ℤ) :
    (el.fill_in_contribution_to_jacobian residuals jacobian).2.entry a b =
      jacobian.entry a b + ∑ l in Finset.range el.nnode, ∑ l2 in Finset.range el.nnode,
        (if (0 ≤ el.nodal_local_eqn l ∧ el.nodal_local_eqn l = a) ∧
            (0 ≤ el.nodal_local_eqn l2 ∧ el.nodal_local_eqn l2 = b) then
          ∑ ipt in Finset.range el.nweight, el.jacobian_summand ipt l l2 else 0) := by
  unfold fill_in_contribution_to_jacobian
  rw [generic_jacobian_entry, ← sum_ite_nested]
  congr 1
  refine Finset.sum_congr rfl (fun l _ => ?_)
  by_cases hl : 0 ≤ el.nodal_local_eqn l ∧ el.nodal_local_eqn l = a
  · rw [if_pos hl, if_pos ⟨one_ne_zero, hl⟩]
  · rw [if_neg hl, if_neg (fun h => hl h.2)]

/-- C11 (counterexample): on the inverted element, whose mapping has `J = -1` at its
integration point, the assembly call returns normally, and the returned residual and
Jacobian are computed from that `J`: the residual of node 0 is `-1/2` and the diagonal
Jacobian entry `(0, 0)` is `-1/2`. -/
theorem degenerate_geometry_is_not_surfaced :
    (mirrored_square_element.dshape_and_dtest_eulerian_at_knot_hele_shaw 0).J ≤ 0 ∧
    ∃ r : Vec ℤ × DenseMatrix,
      mirrored_square_element.fill_in_generic_residual_contribution_hele_shaw_outcome
        Vec.zero ⟨fun _ _ => 0⟩ 1 = Except.ok r ∧
      r.1.val 0 = -1 / 2 ∧ r.2.entry 0 0 = -1 / 2 := by
  refine ⟨by norm_num [mirrored_square_element], _, rfl, ?_, ?_⟩
  · rw [generic_residual_entry]
    simp [mirrored_square_element, unit_square_poisson_element, midpoint_rule,
      Finset.sum_range_succ, Fin.sum_univ_two, residual_summand, knot_wall_data,
      knot_interpolated_dpdx, mirrored_dpsidx, bilinear_psi, bilinear_dpsidx,
      unit_square_corner, Vec.zero]
    norm_num
  · rw [generic_jacobian_entry]
    simp [mirrored_square_element, unit_square_poisson_element, midpoint_rule,
      Finset.sum_range_succ, Fin.sum_univ_two, jacobian_summand, knot_wall_data,
      mirrored_dpsidx, bilinear_psi, bilinear_dpsidx, unit_square_corner]
    norm_num

/-- C11 (amended): the assembly routine does not check the Jacobian determinant.  For every
element state, whatever `J` is returned at the integration points (zero and negative values
included), the call returns normally, and each point contributes
`(w * J) * (dhdt * test(l) + h^3 * sum_k dpdx[k] * dtestdx(l, k))` to the residual of a free
node `l` and `(w * J) * (h^3 * sum_i dpsidx(l2, i) * dtestdx(l, i))` to the Jacobian entry of
a pair of free nodes `(l, l2)` when the flag is non-zero. -/
theorem assembly_returns_whatever_the_jacobian_determinant (el : HeleShawEquations)
    (residuals : Vec ℤ) (jacobian : DenseMatrix) (flag : ℕ) :
    ∃ r : Vec ℤ × DenseMatrix,
      el.fill_in_generic_residual_contribution_hele_shaw_outcome residuals jacobian flag =
        Except.ok r ∧
      (∀ e : ℤ, r.1.val e = residuals.val e + ∑ l in Finset.range el.nnode,
        (if 0 ≤ el.nodal_local_eqn l ∧ el.nodal_local_eqn l = e then
          ∑ ipt in Finset.range el.nweight,
            (el.weight ipt * (el.dshape_and_dtest_eulerian_at_knot_hele_shaw ipt).J) *
              ((el.knot_wall_data ipt).2 *
                  (el.dshape_and_dtest_eulerian_at_knot_hele_shaw ipt).test l +
                (el.knot_wall_data ipt).1 ^ 3 *
                  ∑ k : Fin 2, el.knot_interpolated_dpdx ipt k *
                    (el.dshape_and_dtest_eulerian_at_knot_hele_shaw ipt).dtestdx l k)
        else 0)) ∧
      (∀ a b : ℤ, r.2.entry a b = jacobian.entry a b + ∑ l in Finset.range el.nnode,
        (if flag ≠ 0 ∧ 0 ≤ el.nodal_local_eqn l ∧ el.nodal_local_eqn l = a then
          ∑ l2 in Finset.range el.nnode,
            (if 0 ≤ el.nodal_local_eqn l2 ∧ el.nodal_local_eqn l2 = b then
              ∑ ipt in Finset.range el.nweight,
                (el.weight ipt * (el.dshape_and_dtest_eulerian_at_knot_hele_shaw ipt).J) *
                  ((el.knot_wall_data ipt).1 ^ 3 *
                    ∑ i : Fin 2, (el.dshape_and_dtest_eulerian_at_knot_hele_shaw ipt).dpsidx l2 i *
                      (el.dshape_and_dtest_eulerian_at_knot_hele_shaw ipt).dtestdx l i)
            else 0)
        else 0)) := by
  refine ⟨_, rfl, fun e => ?_, fun a b => ?_⟩
  · rw [generic_residual_entry]
    congr 1
    refine Finset.sum_congr rfl (fun l _ => ?_)
    refine if_congr Iff.rfl (Finset.sum_congr rfl (fun ipt _ => ?_)) rfl
    simp only [residual_summand]
    ring
  · rw [generic_jacobian_entry]
    congr 1
    refine Finset.sum_congr rfl (fun l _ => ?_)
    refine if_congr Iff.rfl (Finset.sum_congr rfl (fun l2 _ => ?_)) rfl
    refine if_congr Iff.rfl (Finset.sum_congr rfl (fun ipt _ => ?_)) rfl
    simp only [jacobian_summand]
    ring

/-- C12: when the wall data returned to the assembler are `h = 1`, `dh/dt = 0` at every
point, the residual added by `fill_in_contribution_to_residuals` for the free nodes is the
Poisson weak-form residual `sum_ipt (sum_k dpdx[k] * dtestdx(l, k)) * (w * J)`, and the
Jacobian added by `fill_in_contribution_to_jacobian` is the Poisson stiffness
`sum_ipt (sum_i dpsidx(l2, i) * dtestdx(l, i)) * (w * J)`. -/
theorem constant_coefficient_gives_poisson (el : HeleShawEquations)
    (hconst : ∀ (ipt : ℕ) (x : Fin 2 → ℚ), el.get_upper_wall_data ipt x (1, 0) = (1, 0))
    (residuals : Vec ℤ) (jacobian : DenseMatrix) :
    (∀ e : ℤ, (el.fill_in_contribution_to_residuals residuals).val e =
      residuals.val e + ∑ l in Finset.range el.nnode,
        (if 0 ≤ el.nodal_local_eqn l ∧ el.nodal_local_eqn l = e then
          ∑ ipt in Finset.range el.nweight,
            (∑ k : Fin 2,
              (∑ n in Finset.range el.nnode, el.raw_nodal_value n *
                (el.dshape_and_dtest_eulerian_at_knot_hele_shaw ipt).dpsidx n k) *
              (el.dshape_and_dtest_eulerian_at_knot_hele_shaw ipt).dtestdx l k) *
            (el.weight ipt * (el.dshape_and_dtest_eulerian_at_knot_hele_shaw ipt).J)
        else 0)) ∧
    (∀ a b : ℤ, (el.fill_in_contribution_to_jacobian residuals jacobian).2.entry a b =
      jacobian.entry a b + ∑ l in Finset.range el.nnode, ∑ l2 in Finset.range el.nnode,
        (if (0 ≤ el.nodal_local_eqn l ∧ el.nodal_local_eqn l = a) ∧
            (0 ≤ el.nodal_local_eqn l2 ∧ el.nodal_local_eqn l2 = b) then
          ∑ ipt in Finset.range el.nweight,
            (∑ i : Fin 2,
              (el.dshape_and_dtest_eulerian_at_knot_hele_shaw ipt).dpsidx l2 i *
              (el.dshape_and_dtest_eulerian_at_knot_hele_shaw ipt).dtestdx l i) *
            (el.weight ipt * (el.dshape_and_dtest_eulerian_at_knot_hele_shaw ipt).J)
        else 0)) := by
  have hw : ∀ ipt, el.knot_wall_data ipt = (1, 0) := fun ipt => hconst ipt _
  constructor
  · intro e
    unfold fill_in_contribution_to_residuals
    rw [generic_residual_entry]
    congr 1
    refine Finset.sum_congr rfl (fun l _ => ?_)
    refine if_congr Iff.rfl (Finset.sum_congr rfl (fun ipt _ => ?_)) rfl
    simp only [residual_summand, hw, knot_interpolated_dpdx]
    ring
  · intro a b
    rw [jacobian_entry_double_sum]
    congr 1
    refine Finset.sum_congr rfl (fun l _ => ?_)
    refine Finset.sum_congr rfl (fun l2 _ => ?_)
    refine if_congr Iff.rfl (Finset.sum_congr rfl (fun ipt _ => ?_)) rfl
    simp only [jacobian_summand, hw]
    ring

/-- Witness for C12 on the unit-square Poisson element with the midpoint rule. -/
theorem constant_coefficient_gives_poisson_witness :
    ((unit_square_poisson_element midpoint_rule).fill_in_contribution_to_residuals
      Vec.zero).val 1 = 1 / 2 ∧
    ((unit_square_poisson_element midpoint_rule).fill_in_contribution_to_jacobian
      Vec.zero ⟨fun _ _ => 0⟩).2.entry 1 2 = -1 / 2 := by
  have h := constant_coefficient_gives_poisson (unit_square_poisson_element midpoint_rule)
    (fun _ _ => rfl) Vec.zero ⟨fun _ _ => 0⟩
  refine ⟨?_, ?_⟩
  · rw [h.1 1]
    simp [unit_square_poisson_element, midpoint_rule, Finset.sum_range_succ, Fin.sum_univ_two,
      bilinear_dpsidx, unit_square_corner, Vec.zero]
    norm_num
  · rw [h.2 1 2]
    simp [unit_square_poisson_element, midpoint_rule, Finset.sum_range_succ, Fin.sum_univ_two,
      bilinear_dpsidx, unit_square_corner]
    norm_num

theorem unit_square_poisson_summand (rule : List ((Fin 2 → ℚ) × ℚ)) (ipt l : ℕ) :
    (unit_square_poisson_element rule).residual_summand ipt l =
      (fun kw : (Fin 2 → ℚ) × ℚ => kw.2 * bilinear_dpsidx kw.1 l 0)
        (rule.getD ipt (fun _ => 0, 0)) := by
  simp only [residual_summand, knot_wall_data, knot_interpolated_dpdx,
    unit_square_poisson_element, Finset.sum_range_succ, Finset.sum_range_zero,
    Fin.sum_univ_two, bilinear_dpsidx, unit_square_corner]
  ring

theorem unit_square_poisson_residual (rule : List ((Fin 2 → ℚ) × ℚ)) (l : ℕ) (hl : l < 4) :
    ((unit_square_poisson_element rule).fill_in_contribution_to_residuals Vec.zero).val l =
      (rule.map (fun kw : (Fin 2 → ℚ) × ℚ => kw.2 * bilinear_dpsidx kw.1 l 0)).sum := by
  unfold fill_in_contribution_to_residuals
  rw [generic_residual_entry]
  simp only [unit_square_poisson_summand]
  have hs : ∀ m : ℕ, ∑ ipt in Finset.range (unit_square_poisson_element rule).nweight,
      (fun kw : (Fin 2 → ℚ) × ℚ => kw.2 * bilinear_dpsidx kw.1 m 0)
        (rule.getD ipt (fun _ => 0, 0)) =
      (rule.map (fun kw : (Fin 2 → ℚ) × ℚ => kw.2 * bilinear_dpsidx kw.1 m 0)).sum :=
    fun m => sum_range_getD
      (fun kw : (Fin 2 → ℚ) × ℚ => kw.2 * bilinear_dpsidx kw.1 m 0) (fun _ => 0, 0) rule
  simp only [hs]
  have hn : (unit_square_poisson_element rule).nnode = 4 := rfl
  have he : (unit_square_poisson_element rule).nodal_local_eqn = fun (l : ℕ) => (l : ℤ) := rfl
  rw [hn, he]
  interval_cases l <;> simp [Finset.sum_range_succ, Vec.zero]

/-- C13: the unit-square scenario.  For the 1x1 element with four free corner nodes
`(0,0), (1,0), (0,1), (1,1)`, bilinear shape functions equal to the test functions, `h = 1`,
`dh/dt = 0`, nodal pressures `p = x` and a zero initial residual, every quadrature rule that
integrates the functions `a + b x + c y` over the unit square exactly gives the residual
`-1/2` at the two nodes with `x = 0` and `+1/2` at the two nodes with `x = 1`; the four
entries sum to zero. -/
theorem unit_square_residual_for_linear_pressure (rule : List ((Fin 2 → ℚ) × ℚ))
    (hexact : ∀ a b c : ℚ,
      (rule.map (fun kw : (Fin 2 → ℚ) × ℚ => kw.2 * (a + b * kw.1 0 + c * kw.1 1))).sum =
        a + b / 2 + c / 2) :
    ((unit_square_poisson_element rule).fill_in_contribution_to_residuals Vec.zero).val 0 =
      -1 / 2 ∧
    ((unit_square_poisson_element rule).fill_in_contribution_to_residuals Vec.zero).val 1 =
      1 / 2 ∧
    ((unit_square_poisson_element rule).fill_in_contribution_to_residuals Vec.zero).val 2 =
      -1 / 2 ∧
    ((unit_square_poisson_element rule).fill_in_contribution_to_residuals Vec.zero).val 3 =
      1 / 2 ∧
    ((unit_square_poisson_element rule).fill_in_contribution_to_residuals Vec.zero).val 0 +
      ((unit_square_poisson_element rule).fill_in_contribution_to_residuals Vec.zero).val 1 +
      ((unit_square_poisson_element rule).fill_in_contribution_to_residuals Vec.zero).val 2 +
      ((unit_square_poisson_element rule).fill_in_contribution_to_residuals Vec.zero).val 3 =
      0 := by
  have h0 : ((unit_square_poisson_element rule).fill_in_contribution_to_residuals
      Vec.zero).val 0 = -1 / 2 := by
    have h := unit_square_poisson_residual rule 0 (by norm_num)
    rw [Nat.cast_zero] at h
    rw [h]
    have hf : (fun kw : (Fin 2 → ℚ) × ℚ => kw.2 * bilinear_dpsidx kw.1 0 0) =
        (fun kw : (Fin 2 → ℚ) × ℚ => kw.2 * (-1 + 0 * kw.1 0 + 1 * kw.1 1)) := by
      funext kw
      simp only [bilinear_dpsidx]
      ring
    rw [hf, hexact]
    norm_num
  have h1 : ((unit_square_poisson_element rule).fill_in_contribution_to_residuals
      Vec.zero).val 1 = 1 / 2 := by
    have h := unit_square_poisson_residual rule 1 (by norm_num)
    rw [Nat.cast_one] at h
    rw [h]
    have hf : (fun kw : (Fin 2 → ℚ) × ℚ => kw.2 * bilinear_dpsidx kw.1 1 0) =
        (fun kw : (Fin 2 → ℚ) × ℚ => kw.2 * (1 + 0 * kw.1 0 + (-1) * kw.1 1)) := by
      funext kw
      simp only [bilinear_dpsidx]
      ring
    rw [hf, hexact]
    norm_num
  have h2 : ((unit_square_poisson_element rule).fill_in_contribution_to_residuals
      Vec.zero).val 2 = -1 / 2 := by
    have h := unit_square_poisson_residual rule 2 (by norm_num)
    rw [Nat.cast_ofNat] at h
    rw [h]
    have hf : (fun kw : (Fin 2 → ℚ) × ℚ => kw.2 * bilinear_dpsidx kw.1 2 0) =
        (fun kw : (Fin 2 → ℚ) × ℚ => kw.2 * (0 + 0 * kw.1 0 + (-1) * kw.1 1)) := by
      funext kw
      simp only [bilinear_dpsidx]
      ring
    rw [hf, hexact]
    norm_num
  have h3 : ((unit_square_poisson_element rule).fill_in_contribution_to_residuals
      Vec.zero).val 3 = 1 / 2 := by
    have h := unit_square_poisson_residual rule 3 (by norm_num)
    rw [Nat.cast_ofNat] at h
    rw [h]
    have hf : (fun kw : (Fin 2 → ℚ) × ℚ => kw.2 * bilinear_dpsidx kw.1 3 0) =
        (fun kw : (Fin 2 → ℚ) × ℚ => kw.2 * (0 + 0 * kw.1 0 + 1 * kw.1 1)) := by
      funext kw
      simp only [bilinear_dpsidx]
      ring
    rw [hf, hexact]
    norm_num
  refine ⟨h0, h1, h2, h3, ?_⟩
  rw [h0, h1, h2, h3]
  norm_num

/-- Witness for C13: the midpoint rule integrates `a + b x + c y` exactly. -/
theorem unit_square_residual_for_linear_pressure_witness :
    ((unit_square_poisson_element midpoint_rule).fill_in_contribution_to_residuals
      Vec.zero).val 0 = -1 / 2 ∧
    ((unit_square_poisson_element midpoint_rule).fill_in_contribution_to_residuals
      Vec.zero).val 1 = 1 / 2 ∧
    ((unit_square_poisson_element midpoint_rule).fill_in_contribution_to_residuals
      Vec.zero).val 2 = -1 / 2 ∧
    ((unit_square_poisson_element midpoint_rule).fill_in_contribution_to_residuals
      Vec.zero).val 3 = 1 / 2 :=
  have h := unit_square_residual_for_linear_pressure midpoint_rule
    (fun a b c => by simp [midpoint_rule]; ring)
  ⟨h.1, h.2.1, h.2.2.1, h.2.2.2.1⟩

theorem dense_matrix_ext (m n : DenseMatrix) (h : ∀ a b, m.entry a b = n.entry a b) :
    m = n := by
  cases m with
  | mk f =>
    cases n with
    | mk g =>
      have hfg : f = g := funext (fun a => funext (fun b => h a b))
      rw [hfg]

theorem vec_ext {ι : Type} (v w : Vec ι) (h : ∀ i, v.val i = w.val i) : v = w := by
  cases v with
  | mk f =>
    cases w with
    | mk g =>
      have hfg : f = g := funext h
      rw [hfg]

theorem jacobian_summand_symm (el : HeleShawEquations) (ipt l l2 : ℕ)
    (h : ∀ i, (el.dshape_and_dtest_eulerian_at_knot_hele_shaw ipt).dtestdx l i =
        (el.dshape_and_dtest_eulerian_at_knot_hele_shaw ipt).dpsidx l i)
    (h2 : ∀ i, (el.dshape_and_dtest_eulerian_at_knot_hele_shaw ipt).dtestdx l2 i =
        (el.dshape_and_dtest_eulerian_at_knot_hele_shaw ipt).dpsidx l2 i) :
    el.jacobian_summand ipt l l2 = el.jacobian_summand ipt l2 l := by
  simp only [jacobian_summand, h, h2, Fin.sum_univ_two]
  ring

/-- Symmetry of the Jacobian after `fill_in_contribution_to_jacobian` when the test functions
have the gradients of the shape functions. -/
theorem jacobian_symmetric (el : HeleShawEquations) (residuals : Vec ℤ)
    (jacobian : DenseMatrix)
    (htest : ∀ ipt < el.nweight, ∀ l < el.nnode, ∀ i : Fin 2,
      (el.dshape_and_dtest_eulerian_at_knot_hele_shaw ipt).dtestdx l i =
        (el.dshape_and_dtest_eulerian_at_knot_hele_shaw ipt).dpsidx l i)
    (hsym : ∀ a b : ℤ, jacobian.entry a b = jacobian.entry b a) (a b : ℤ) :
    (el.fill_in_contribution_to_jacobian residuals jacobian).2.entry a b =
      (el.fill_in_contribution_to_jacobian residuals jacobian).2.entry b a := by
  rw [jacobian_entry_double_sum, jacobian_entry_double_sum, hsym a b]
  congr 1
  rw [Finset.sum_comm]
  refine Finset.sum_congr rfl (fun l hl => ?_)
  refine Finset.sum_congr rfl (fun l2 hl2 => ?_)
  have hl' := Finset.mem_range.mp hl
  have hl2' := Finset.mem_range.mp hl2
  refine if_congr and_comm (Finset.sum_congr rfl (fun ipt hipt => ?_)) rfl
  have hipt' := Finset.mem_range.mp hipt
  exact jacobian_summand_symm el ipt l2 l (htest ipt hipt' l2 hl2') (htest ipt hipt' l hl')

/-- C14: the elemental Jacobian is symmetric for this weak form, and not by copying.  When
`dtestdx = dpsidx` at every integration point and the incoming Jacobian is symmetric, the
Jacobian after `fill_in_contribution_to_jacobian` satisfies `jacobian(a, b) = jacobian(b, a)`
for all `a`, `b`.  Both off-diagonal entries are accumulated separately: on an element whose
test functions differ from its shape functions the entries `(0, 1)` and `(1, 0)` come out
different (6 and 5). -/
theorem jacobian_symmetric_by_construction :
    (∀ (el : HeleShawEquations) (residuals : Vec ℤ) (jacobian : DenseMatrix),
      (∀ ipt < el.nweight, ∀ l < el.nnode, ∀ i : Fin 2,
        (el.dshape_and_dtest_eulerian_at_knot_hele_shaw ipt).dtestdx l i =
          (el.dshape_and_dtest_eulerian_at_knot_hele_shaw ipt).dpsidx l i) →
      (∀ a b : ℤ, jacobian.entry a b = jacobian.entry b a) →
      ∀ a b : ℤ, (el.fill_in_contribution_to_jacobian residuals jacobian).2.entry a b =
        (el.fill_in_contribution_to_jacobian residuals jacobian).2.entry b a) ∧
    ((petrov_galerkin_element.fill_in_contribution_to_jacobian
        Vec.zero ⟨fun _ _ => 0⟩).2.entry 0 1 = 6 ∧
     (petrov_galerkin_element.fill_in_contribution_to_jacobian
        Vec.zero ⟨fun _ _ => 0⟩).2.entry 1 0 = 5) := by
  refine ⟨fun el residuals jacobian htest hsym a b =>
    jacobian_symmetric el residuals jacobian htest hsym a b, ?_, ?_⟩
  · rw [jacobian_entry_double_sum]
    simp [petrov_galerkin_element, unit_square_poisson_element, midpoint_rule,
      Finset.sum_range_succ, Fin.sum_univ_two, jacobian_summand, knot_wall_data]
    norm_num
  · rw [jacobian_entry_double_sum]
    simp [petrov_galerkin_element, unit_square_poisson_element, midpoint_rule,
      Finset.sum_range_succ, Fin.sum_univ_two, jacobian_summand, knot_wall_data]

/-- Witness for C14 on the unit-square element (test functions equal to the shape functions,
zero initial Jacobian): the entries `(0, 1)` and `(1, 0)` agree. -/
theorem jacobian_symmetric_by_construction_witness :
    (unit_square_element.fill_in_contribution_to_jacobian
        Vec.zero ⟨fun _ _ => 0⟩).2.entry 0 1 =
      (unit_square_element.fill_in_contribution_to_jacobian
        Vec.zero ⟨fun _ _ => 0⟩).2.entry 1 0 :=
  jacobian_symmetric_by_construction.1 unit_square_element Vec.zero ⟨fun _ _ => 0⟩
    (fun _ _ _ _ _ => rfl) (fun _ _ => rfl) 0 1

/-- C15: residual-only mode never touches the Jacobian.  With flag 0 the generic routine
returns the matrix argument unchanged (for `fill_in_contribution_to_residuals` that argument
is `Dummy_matrix`), and the residual of `fill_in_contribution_to_residuals` is the residual
of `fill_in_contribution_to_jacobian` from the same element state and incoming residual,
whatever Jacobian the latter receives. -/
theorem residual_only_mode_leaves_jacobian (el : HeleShawEquations) (residuals : Vec ℤ)
    (jacobian : DenseMatrix) :
    (el.fill_in_generic_residual_contribution_hele_shaw residuals jacobian 0).2 = jacobian ∧
    (el.fill_in_generic_residual_contribution_hele_shaw residuals el.Dummy_matrix 0).2 =
      el.Dummy_matrix ∧
    el.fill_in_contribution_to_residuals residuals =
      (el.fill_in_contribution_to_jacobian residuals jacobian).1 := by
  have hframe : ∀ m : DenseMatrix,
      (el.fill_in_generic_residual_contribution_hele_shaw residuals m 0).2 = m := by
    intro m
    refine dense_matrix_ext _ _ (fun a b => ?_)
    rw [generic_jacobian_entry]
    have hz : ∀ l ∈ Finset.range el.nnode,
        (if (0 : ℕ) ≠ 0 ∧ 0 ≤ el.nodal_local_eqn l ∧ el.nodal_local_eqn l = a then
          ∑ l2 in Finset.range el.nnode,
            (if 0 ≤ el.nodal_local_eqn l2 ∧ el.nodal_local_eqn l2 = b then
              ∑ ipt in Finset.range el.nweight, el.jacobian_summand ipt l l2 else 0)
        else 0) = 0 := fun l _ => if_neg (fun h => h.1 rfl)
    rw [Finset.sum_eq_zero hz, add_zero]
  refine ⟨hframe jacobian, hframe el.Dummy_matrix, ?_⟩
  refine vec_ext _ _ (fun e => ?_)
  unfold fill_in_contribution_to_residuals fill_in_contribution_to_jacobian
  rw [generic_residual_entry, generic_residual_entry]

/-- C16: for every local coordinate `s` and every incoming content of `gradient`,
`get_pressure_gradient` leaves `gradient[j] = sum_l nodal_value(l) * dpsidx(l, j)` for
`j = 0, 1`; two calls with different incoming vectors give the same two entries. -/
theorem get_pressure_gradient_resets_and_sums (el : HeleShawEquations) (s : Fin 2 → ℚ) :
    (∀ (gradient : Vec ℕ) (j : Fin 2),
      (el.get_pressure_gradient s gradient).val j.val =
        ∑ l in Finset.range el.nnode,
          el.nodal_value l * (el.dshape_eulerian s).dpsidx l j) ∧
    (∀ (gradient gradient2 : Vec ℕ) (j : Fin 2),
      (el.get_pressure_gradient s gradient).val j.val =
        (el.get_pressure_gradient s gradient2).val j.val) := by
  refine ⟨fun gradient j => get_pressure_gradient_val el s gradient j,
    fun gradient gradient2 j => ?_⟩
  rw [get_pressure_gradient_val, get_pressure_gradient_val]

/-! ## Weights of the mesh sensitivities, output variables, rigid pressure shifts -/

theorem scale_weights_knot_wall_flux_data (el : HeleShawEquations) (c : ℚ) (ipt : ℕ) :
    (el.scale_weights c).knot_wall_flux_data ipt = el.knot_wall_flux_data ipt := rfl

theorem scale_weights_knot_interpolated_dpdx_dX (el : HeleShawEquations) (c : ℚ) (ipt : ℕ) :
    (el.scale_weights c).knot_interpolated_dpdx_dX ipt = el.knot_interpolated_dpdx_dX ipt := rfl

theorem scale_weights_knot_d_dpdx_dX (el : HeleShawEquations) (c : ℚ) (ipt : ℕ) :
    (el.scale_weights c).knot_d_dpdx_dX ipt = el.knot_d_dpdx_dX ipt := rfl

/-- The summand of `get_dresidual_dnodal_coordinates` is affine, not linear, in the weights:
scaling the weights by `c` scales the summand by `c` up to the wall-velocity terms, which do
not carry the weight. -/
theorem sensitivity_summand_scale_weights (el : HeleShawEquations) (c : ℚ) (ipt l : ℕ)
    (p : Fin 2) (q : ℕ) :
    (el.scale_weights c).sensitivity_summand ipt l p q =
      c * el.sensitivity_summand ipt l p q +
      (1 - c) *
        ((el.knot_wall_flux_data ipt).dhdt *
            (el.dshape_and_dtest_eulerian_at_knot_hele_shaw_dX ipt).test l *
            (el.dshape_and_dtest_eulerian_at_knot_hele_shaw_dX ipt).dJ_dX p q +
          (el.knot_wall_flux_data ipt).d_dhdt_dx p *
            (el.dshape_and_dtest_eulerian_at_knot_hele_shaw_dX ipt).test l *
            (el.dshape_and_dtest_eulerian_at_knot_hele_shaw_dX ipt).psi q *
            (el.dshape_and_dtest_eulerian_at_knot_hele_shaw_dX ipt).J) := by
  have hw : (el.scale_weights c).weight ipt = c * el.weight ipt := rfl
  have hs : (el.scale_weights c).dshape_and_dtest_eulerian_at_knot_hele_shaw_dX ipt =
      el.dshape_and_dtest_eulerian_at_knot_hele_shaw_dX ipt := rfl
  simp only [sensitivity_summand, scale_weights_knot_wall_flux_data,
    scale_weights_knot_interpolated_dpdx_dX, scale_weights_knot_d_dpdx_dX, hw, hs,
    Fin.sum_univ_two]
  ring

/-- C17 (the code departs from the claim): on the unit-square element with every quadrature
weight multiplied by `c = 0`, so that all weights are zero, `get_dresidual_dnodal_coordinates`
does not leave a zero tensor unchanged: it adds `1/2` to the entry `(0, 0, 1)`.  The
wall-velocity terms `dhdt * test(l) * dJ_dX(p, q) + d_dhdt_dx[p] * test(l) * psi(q) * J` are
added without the weight. -/
theorem dresidual_not_linear_in_weights :
    (∀ ipt : ℕ, (unit_square_element.scale_weights 0).weight ipt = 0) ∧
    ((unit_square_element.scale_weights 0).get_dresidual_dnodal_coordinates
        ⟨fun _ _ _ => 0⟩).entry 0 0 1 = 1 / 2 := by
  constructor
  · intro ipt
    simp [scale_weights]
  · rw [dresidual_entry]
    simp [scale_weights, unit_square_element, Finset.sum_range_succ, Fin.sum_univ_two,
      sensitivity_summand, knot_wall_flux_data, knot_interpolated_x_dX,
      knot_interpolated_dpdx_dX, knot_d_dpdx_dX, bilinear_psi, bilinear_dpsidx,
      unit_square_corner, two_point_knot]
    norm_num

/-- C18: the steady `compute_error` overwrites its outputs: the returned `(error, norm)` pair
is the same whatever the two output variables held before the call.  The residual/Jacobian
assembler, in contrast, adds to the incoming entries: its result is the incoming entry plus
the result obtained from zero. -/
theorem compute_error_overwrites_outputs (el : HeleShawEquations)
    (exact_soln_pt : (Fin 2 → ℚ) → ℕ → ℚ) :
    (∀ error norm error2 norm2 : ℚ,
      el.compute_error exact_soln_pt error norm = el.compute_error exact_soln_pt error2 norm2) ∧
    (∀ (residuals : Vec ℤ) (jacobian : DenseMatrix) (flag : ℕ) (e : ℤ),
      (el.fill_in_generic_residual_contribution_hele_shaw residuals jacobian flag).1.val e =
        residuals.val e +
          (el.fill_in_generic_residual_contribution_hele_shaw Vec.zero jacobian flag).1.val e) ∧
    (∀ (residuals : Vec ℤ) (jacobian : DenseMatrix) (flag : ℕ) (a b : ℤ),
      (el.fill_in_generic_residual_contribution_hele_shaw residuals jacobian flag).2.entry a b =
        jacobian.entry a b +
          (el.fill_in_generic_residual_contribution_hele_shaw residuals ⟨fun _ _ => 0⟩
            flag).2.entry a b) := by
  refine ⟨fun error norm error2 norm2 => ?_, fun residuals jacobian flag e => ?_,
    fun residuals jacobian flag a b => ?_⟩
  · rw [compute_error_eq_sums, compute_error_eq_sums]
  · rw [generic_residual_entry, generic_residual_entry]
    simp [Vec.zero]
  · rw [generic_jacobian_entry, generic_jacobian_entry]
    simp

theorem jacobian_summand_sum_zero (el : HeleShawEquations) (ipt l : ℕ)
    (hpu : ∀ i : Fin 2, ∑ l2 in Finset.range el.nnode,
      (el.dshape_and_dtest_eulerian_at_knot_hele_shaw ipt).dpsidx l2 i = 0) :
    ∑ l2 in Finset.range el.nnode, el.jacobian_summand ipt l l2 = 0 := by
  have h : ∀ l2 ∈ Finset.range el.nnode, el.jacobian_summand ipt l l2 =
      (el.dshape_and_dtest_eulerian_at_knot_hele_shaw ipt).dpsidx l2 0 *
        ((el.knot_wall_data ipt).1 ^ 3 *
          (el.dshape_and_dtest_eulerian_at_knot_hele_shaw ipt).dtestdx l 0 *
          (el.weight ipt * (el.dshape_and_dtest_eulerian_at_knot_hele_shaw ipt).J)) +
      (el.dshape_and_dtest_eulerian_at_knot_hele_shaw ipt).dpsidx l2 1 *
        ((el.knot_wall_data ipt).1 ^ 3 *
          (el.dshape_and_dtest_eulerian_at_knot_hele_shaw ipt).dtestdx l 1 *
          (el.weight ipt * (el.dshape_and_dtest_eulerian_at_knot_hele_shaw ipt).J)) := by
    intro l2 _
    simp only [jacobian_summand, Fin.sum_univ_two]
    ring
  rw [Finset.sum_congr rfl h, Finset.sum_add_distrib, ← Finset.sum_mul, ← Finset.sum_mul,
    hpu 0, hpu 1]
  ring

theorem interpolated_dpdx_shift (el : HeleShawEquations) (p : ℕ → ℚ) (c : ℚ) (ipt : ℕ)
    (k : Fin 2)
    (hpu : ∑ l in Finset.range el.nnode,
      (el.dshape_and_dtest_eulerian_at_knot_hele_shaw ipt).dpsidx l k = 0) :
    (el.set_raw_nodal_value (fun l => p l + c)).knot_interpolated_dpdx ipt k =
      (el.set_raw_nodal_value p).knot_interpolated_dpdx ipt k := by
  simp only [knot_interpolated_dpdx, set_raw_nodal_value, add_mul, Finset.sum_add_distrib,
    ← Finset.mul_sum]
  rw [hpu]
  ring

/-- C19: if the shape-function gradients sum to zero over the nodes at every integration
point and every node of the element is free, then every row of the contribution added by
`fill_in_contribution_to_jacobian` sums to zero over the columns (the local equation numbers
of the element), and shifting all nodal pressures by a constant `c` leaves every entry of the
residual of `fill_in_contribution_to_residuals` unchanged. -/
theorem jacobian_rows_sum_to_zero (el : HeleShawEquations) (residuals : Vec ℤ)
    (jacobian : DenseMatrix)
    (hpu : ∀ ipt < el.nweight, ∀ i : Fin 2, ∑ l in Finset.range el.nnode,
      (el.dshape_and_dtest_eulerian_at_knot_hele_shaw ipt).dpsidx l i = 0)
    (hfree : ∀ l < el.nnode, 0 ≤ el.nodal_local_eqn l) :
    (∀ a : ℤ, ∑ b in (Finset.range el.nnode).image el.nodal_local_eqn,
      ((el.fill_in_contribution_to_jacobian residuals jacobian).2.entry a b -
        jacobian.entry a b) = 0) ∧
    (∀ (p : ℕ → ℚ) (c : ℚ) (e : ℤ),
      ((el.set_raw_nodal_value (fun l => p l + c)).fill_in_contribution_to_residuals
          residuals).val e =
        ((el.set_raw_nodal_value p).fill_in_contribution_to_residuals residuals).val e) := by
  constructor
  · intro a
    simp only [jacobian_entry_double_sum, add_sub_cancel_left]
    rw [Finset.sum_comm]
    refine Finset.sum_eq_zero (fun l _ => ?_)
    rw [Finset.sum_comm]
    have hinner : ∀ l2 ∈ Finset.range el.nnode,
        ∑ b in (Finset.range el.nnode).image el.nodal_local_eqn,
          (if (0 ≤ el.nodal_local_eqn l ∧ el.nodal_local_eqn l = a) ∧
              (0 ≤ el.nodal_local_eqn l2 ∧ el.nodal_local_eqn l2 = b) then
            ∑ ipt in Finset.range el.nweight, el.jacobian_summand ipt l l2 else 0) =
        (if 0 ≤ el.nodal_local_eqn l ∧ el.nodal_local_eqn l = a then
          ∑ ipt in Finset.range el.nweight, el.jacobian_summand ipt l l2 else 0) := by
      intro l2 hl2
      have hmem : el.nodal_local_eqn l2 ∈ (Finset.range el.nnode).image el.nodal_local_eqn :=
        Finset.mem_image_of_mem _ hl2
      have h0 := hfree l2 (Finset.mem_range.mp hl2)
      rw [Finset.sum_eq_single (el.nodal_local_eqn l2)]
      · by_cases hl : 0 ≤ el.nodal_local_eqn l ∧ el.nodal_local_eqn l = a
        · rw [if_pos ⟨hl, h0, rfl⟩, if_pos hl]
        · rw [if_neg (fun h => hl h.1), if_neg hl]
      · intro b _ hb
        exact if_neg (fun h => hb h.2.2.symm)
      · intro h
        exact absurd hmem h
    rw [Finset.sum_congr rfl hinner]
    by_cases hl : 0 ≤ el.nodal_local_eqn l ∧ el.nodal_local_eqn l = a
    · rw [Finset.sum_congr rfl (fun l2 _ => if_pos hl), Finset.sum_comm]
      exact Finset.sum_eq_zero (fun ipt hipt =>
        jacobian_summand_sum_zero el ipt l (hpu ipt (Finset.mem_range.mp hipt)))
    · exact Finset.sum_eq_zero (fun l2 _ => if_neg hl)
  · intro p c e
    unfold fill_in_contribution_to_residuals
    rw [generic_residual_entry, generic_residual_entry]
    simp only [set_raw_nodal_value_nnode, set_raw_nodal_value_nweight,
      set_raw_nodal_value_nodal_local_eqn]
    congr 1
    refine Finset.sum_congr rfl (fun l _ => ?_)
    refine if_congr Iff.rfl (Finset.sum_congr rfl (fun ipt hipt => ?_)) rfl
    have hipt' := Finset.mem_range.mp hipt
    simp only [residual_summand, set_raw_nodal_value_knot_wall_data, Fin.sum_univ_two]
    rw [interpolated_dpdx_shift el p c ipt 0 (hpu ipt hipt' 0),
      interpolated_dpdx_shift el p c ipt 1 (hpu ipt hipt' 1)]
    rfl

theorem bilinear_dpsidx_sum_zero (s : Fin 2 → ℚ) (i : Fin 2) :
    ∑ l in Finset.range 4, bilinear_dpsidx s l i = 0 := by
  fin_cases i
  · simp [Finset.sum_range_succ, bilinear_dpsidx]
  · simp only [Finset.sum_range_succ, Finset.sum_range_zero, bilinear_dpsidx]
    ring

/-- Witness for C19 on the unit-square Poisson element with the midpoint rule (bilinear shape
functions, all four nodes free): row 0 of the contribution to a Jacobian filled with 7 sums
to zero, and shifting the pressures by 7 leaves the residual entry 1 unchanged. -/
theorem jacobian_rows_sum_to_zero_witness :
    (∑ b in (Finset.range (unit_square_poisson_element midpoint_rule).nnode).image
        (unit_square_poisson_element midpoint_rule).nodal_local_eqn,
      (((unit_square_poisson_element midpoint_rule).fill_in_contribution_to_jacobian
          Vec.zero ⟨fun _ _ => 7⟩).2.entry 0 b -
        (⟨fun _ _ => 7⟩ : DenseMatrix).entry 0 b)) = 0 ∧
    (((unit_square_poisson_element midpoint_rule).set_raw_nodal_value
        (fun l => unit_square_corner l 0 + 7)).fill_in_contribution_to_residuals
          Vec.zero).val 1 =
      (((unit_square_poisson_element midpoint_rule).set_raw_nodal_value
        (fun l => unit_square_corner l 0)).fill_in_contribution_to_residuals
          Vec.zero).val 1 :=
  have h := jacobian_rows_sum_to_zero (unit_square_poisson_element midpoint_rule)
    Vec.zero ⟨fun _ _ => 7⟩
    (fun _ _ i => bilinear_dpsidx_sum_zero _ i)
    (fun l _ => Int.natCast_nonneg l)
  ⟨h.1 0, h.2 (fun l => unit_square_corner l 0) 7 1⟩

end HeleShawEquations
